import Mathlib

/-!
# ehviewer-dl-converter: the metadata record codec (`info.go`)

A shallow embedding of `SpiderInfo`, its text encoder `ToPlainText`, the text
decoder `NewInfoFromPlain`, the binary entry points `ToCbor` / `NewInfoFromCbor`
and the format sniffing `NewInfo`, followed by the properties of the record
codec.

Conventions of the embedding.

* A Go `string` / `[]byte` is a list of bytes; a byte is kept as its numeric
  value, a natural number (every constant the program compares against is ASCII).
* Go `int` is the 64-bit signed integer, kept as an `Int`; the conversion
  `int(u)` of a `uint64` wraps explicitly (`toInt`).
* A Go result pair `(*SpiderInfo, error)` is a pair of options: `none` is `nil`.
* `map[int]string` is an association list with distinct keys; a `nil` map is
  `none`.
-/

namespace EhConv

/-- One byte of a Go string, as its numeric value. -/
abbrev Byte := Nat

/-- Go `string` and `[]byte`: a sequence of bytes. -/
abbrev Str := List Byte

/-- The bytes of an ASCII literal. -/
def ascii (s : String) : Str := s.toList.map Char.toNat

/-- Conversion `int(u)` of a `uint64` to the 64-bit `int`: two's complement wrap. -/
def toInt (u : Nat) : Int :=
  if u % 2 ^ 64 < 2 ^ 63 then ((u % 2 ^ 64 : Nat) : Int) else ((u % 2 ^ 64 : Nat) : Int) - 2 ^ 64

/-! ## Errors -/

/-- The two sentinel errors wrapped by `strconv.NumError`. -/
inductive NumErrKind where
  | ErrSyntax
  | ErrRange
  deriving DecidableEq, Repr

/-- Error values that the codec hands to its caller. -/
inductive Error where
  /-- The package variable `errInvalidFormat = errors.New("invalid format")`. -/
  | errInvalidFormat
  /-- The value `*strconv.NumError` of `ParseUint`: the offending text and the cause. -/
  | NumError (num : Str) (err : NumErrKind)
  /-- The value `io.EOF`, returned by `Read` at the end of the input. -/
  | EOF
  /-- An error value produced by the CBOR library. -/
  | cborError (code : Nat)
  deriving DecidableEq, Repr

/-! ## Data model -/

/-- Go `map[int]string` (non-nil): association list, keys distinct. -/
abbrev GoMap := List (Int × Str)

/-- Map read `m[k]`: the zero value `""` when the key is absent. -/
def GoMap.get : GoMap → Int → Str
  | [], _ => []
  | (k', v) :: m, k => if k' = k then v else GoMap.get m k

/-- Map write `m[k] = v`: replaces the entry of `k`, or adds one. -/
def GoMap.set : GoMap → Int → Str → GoMap
  | [], k, v => [(k, v)]
  | (k', v') :: m, k, v => if k' = k then (k, v) :: m else (k', v') :: GoMap.set m k v

/-- The record `SpiderInfo`. -/
structure SpiderInfo where
  StartPage : Int
  GID : Int
  Token : Str
  PreviewPages : Int
  PreviewPerPage : Int
  Pages : Int
  TokenMap : Option GoMap
  deriving DecidableEq, Repr

/-- The zero value of `SpiderInfo` (`var info SpiderInfo`). -/
def SpiderInfo.zero : SpiderInfo :=
  { StartPage := 0, GID := 0, Token := [], PreviewPages := 0, PreviewPerPage := 0,
    Pages := 0, TokenMap := none }

/-- The entries of a possibly nil map: ranging over a nil map visits nothing. -/
def entries (m : Option GoMap) : GoMap := m.getD []

/-- A Go result `(*SpiderInfo, error)`. -/
abbrev Result := Option SpiderInfo × Option Error

/-! ## Library: `fmt.Sprintf` for `%d` and `%08x` -/

/-- The digit table `"0123456789abcdef"` of package `fmt`. -/
def digitByte (d : Nat) : Byte := if d < 10 then 48 + d else 97 + (d - 10)

/-- The digit loop of `fmt.fmtInteger`: the numeral of `u`, most significant digit
first. The first argument bounds the number of digits after the first by the size
of the formatting buffer. -/
def fmtDigits (base : Nat) : Nat → Nat → Str
  | 0, u => [digitByte (u % base)]
  | fuel + 1, u =>
    if base ≤ u then fmtDigits base fuel (u / base) ++ [digitByte (u % base)]
    else [digitByte u]

/-- The function `fmt.fmtInteger` for a signed 64-bit argument with zero padding
to `wid` characters (`wid = 0`: no width): sign, then the digits of the
magnitude, padded with zeros to the width less the room for the sign. -/
def fmtInteger (base wid : Nat) (v : Int) : Str :=
  let negative := decide (v < 0)
  let u := v.natAbs
  let prec := if negative then wid - 1 else wid
  let ds := fmtDigits base 64 u
  let ds := List.replicate (prec - ds.length) 48 ++ ds
  if negative then 45 :: ds else ds

/-- The verb `%d`. -/
def fmtD (v : Int) : Str := fmtInteger 10 0 v

/-- The verb `%08x`. -/
def fmt08x (v : Int) : Str := fmtInteger 16 8 v

/-! ## Library: `strconv.ParseUint(s, base, 64)` -/

/-- The helper `lower(c) = c | ('x' - 'X')`. -/
def lower (c : Byte) : Byte := c ||| 0x20

/-- The digit value of a byte in `ParseUint`, `none` for a byte that is no digit
or letter. -/
def digitVal (c : Byte) : Option Nat :=
  if 48 ≤ c ∧ c ≤ 57 then some (c - 48)
  else if 97 ≤ lower c ∧ lower c ≤ 122 then some (lower c - 97 + 10)
  else none

/-- The largest `uint64`. -/
def maxUint64 : Nat := 2 ^ 64 - 1

/-- The loop of `ParseUint` over the bytes of the text, `n` the value so far. -/
def parseLoop (s0 : Str) (base : Nat) : Str → Nat → Except Error Nat
  | [], n => .ok n
  | c :: cs, n =>
    match digitVal c with
    | none => .error (.NumError s0 .ErrSyntax)
    | some d =>
      if base ≤ d then .error (.NumError s0 .ErrSyntax)
      else if maxUint64 / base + 1 ≤ n then .error (.NumError s0 .ErrRange)
      else
        let n := (n * base) % 2 ^ 64
        let n1 := (n + d) % 2 ^ 64
        if n1 < n ∨ maxUint64 < n1 then .error (.NumError s0 .ErrRange)
        else parseLoop s0 base cs n1

/-- The function `strconv.ParseUint(s, base, 64)` for a base between 2 and 36. -/
def ParseUint (s : Str) (base : Nat) : Except Error Nat :=
  if s = [] then .error (.NumError s .ErrSyntax) else parseLoop s base s 0

/-! ## Library: `strings.Split` with a one-byte separator -/

/-- The function `strings.Split(s, sep)` for a separator of one byte: the pieces
between the occurrences of the separator, one more than there are separators. -/
def Split (sep : Byte) : Str → List Str
  | [] => [[]]
  | c :: cs =>
    if c = sep then [] :: Split sep cs
    else
      match Split sep cs with
      | [] => [[c]]
      | p :: ps => (c :: p) :: ps

/-! ## Library: `bufio.Scanner` with `bufio.ScanLines` -/

/-- The constant `bufio.MaxScanTokenSize`: the largest buffer of a `Scanner`. -/
def MaxScanTokenSize : Nat := 64 * 1024

/-- The helper `dropCR` of `bufio`: drops one terminal carriage return. -/
def dropCR (data : Str) : Str :=
  if data.getLast? = some 13 then data.dropLast else data

/-- One call of `rd.Scan()` with the split function `ScanLines`, on the input not
yet consumed. `some (text, rest)`: `Scan` returned true, `rd.Text()` is `text` and
`rest` is left. `none`: `Scan` returned false, at the end of the input or
because the line, terminator included, does not fit the buffer of
`MaxScanTokenSize` bytes (`ErrTooLong`; an unterminated last line that fills the
buffer fails the same way, before the end of the input is seen). -/
def Scan (rd : Str) : Option (Str × Str) :=
  let line := rd.takeWhile (fun b => b != 10)
  match rd.dropWhile (fun b => b != 10) with
  | _ :: rest =>
    if line.length + 1 ≤ MaxScanTokenSize then some (dropCR line, rest) else none
  | [] =>
    if line = [] then none
    else if line.length < MaxScanTokenSize then some (dropCR line, [])
    else none

/-! ## `info.go` -/

/-- The method `SpiderInfo.ToPlainText`. The slice `keys` receives the keys of the
map; `sort.Slice` permutes it in place (its comparison is handed slice positions);
the loop `for k := range keys` then runs `k` over the positions
`0 .. len(keys) - 1`, so only the length of `keys` is read. -/
def ToPlainText (i : SpiderInfo) : Str × Option Error :=
  let sb : Str := []
  let sb := sb ++ ascii "VERSION2\n"
  let sb := sb ++ (fmt08x i.StartPage ++ [10])
  let sb := sb ++ (fmtD i.GID ++ [10])
  let sb := sb ++ i.Token
  let sb := sb ++ [10]
  let sb := sb ++ ascii "1\n"
  let sb := sb ++ (fmtD i.PreviewPages ++ [10])
  let sb := sb ++ (fmtD i.PreviewPerPage ++ [10])
  let sb := sb ++ (fmtD i.Pages ++ [10])
  let keys : List Int := (entries i.TokenMap).map Prod.fst
  let sb := (List.range keys.length).foldl
    (fun (sb : Str) (k : Nat) =>
      sb ++ (fmtD (k : Int) ++ [32] ++ (entries i.TokenMap).get (k : Int) ++ [10])) sb
  (sb, none)

/-- The loop `for rd.Scan() { ... }` of `NewInfoFromPlain` filling the token map.
Every successful `Scan` consumes at least one byte, so the first argument, the
number of iterations allowed, is never exhausted when it starts at the length of
the input. -/
def tokenLoop : Nat → Str → GoMap → Except Error GoMap
  | 0, _, m => .ok m
  | fuel + 1, rd, m =>
    match Scan rd with
    | none => .ok m
    | some (text, rd) =>
      let arr := Split 32 text
      if arr.length ≠ 2 then .error .errInvalidFormat
      else
        match ParseUint (arr.getD 0 []) 10 with
        | .error err => .error err
        | .ok id => tokenLoop fuel rd (m.set (toInt id) (arr.getD 1 []))

/-- The function `NewInfoFromPlain`, on the bytes the reader delivers. -/
def NewInfoFromPlain (data : Str) : Result :=
  let info := SpiderInfo.zero
  let rd := data
  -- VERSION2
  match Scan rd with
  | none => (none, some .errInvalidFormat)
  | some (text, rd) =>
  if text ≠ ascii "VERSION2" then (none, some .errInvalidFormat) else
  -- startPage
  match Scan rd with
  | none => (none, some .errInvalidFormat)
  | some (text, rd) =>
  match ParseUint text 16 with
  | .error err => (none, some err)
  | .ok pageNum =>
  let info := { info with StartPage := toInt pageNum }
  -- gid
  match Scan rd with
  | none => (none, some .errInvalidFormat)
  | some (text, rd) =>
  match ParseUint text 10 with
  | .error err => (none, some err)
  | .ok gid =>
  let info := { info with GID := toInt gid }
  -- token
  match Scan rd with
  | none => (none, some .errInvalidFormat)
  | some (text, rd) =>
  let info := { info with Token := text }
  -- mode, deprecated
  match Scan rd with
  | none => (none, some .errInvalidFormat)
  | some (_, rd) =>
  -- previewPages
  match Scan rd with
  | none => (none, some .errInvalidFormat)
  | some (text, rd) =>
  match ParseUint text 10 with
  | .error err => (none, some err)
  | .ok previewPages =>
  let info := { info with PreviewPages := toInt previewPages }
  -- previewPerPage
  match Scan rd with
  | none => (none, some .errInvalidFormat)
  | some (text, rd) =>
  match ParseUint text 10 with
  | .error err => (none, some err)
  | .ok previewPerPage =>
  let info := { info with PreviewPerPage := toInt previewPerPage }
  -- pages
  match Scan rd with
  | none => (none, some .errInvalidFormat)
  | some (text, rd) =>
  match ParseUint text 10 with
  | .error err => (none, some err)
  | .ok pages =>
  let info := { info with Pages := toInt pages }
  match tokenLoop rd.length rd [] with
  | .error err => (none, some err)
  | .ok m => (some { info with TokenMap := some m }, none)

/-! ## Library: the CBOR codec `github.com/fxamacker/cbor/v2` -/

/-- Big-endian bytes of `n`, `k` of them. -/
def beBytes : Nat → Nat → Str
  | 0, _ => []
  | k + 1, n => beBytes k (n / 256) ++ [n % 256]

/-- Modelled from the spec: the head of a CBOR data item, the major type in the
top three bits of the first byte and the argument in its shortest form (the
"standard generic encoding rules"; the library is not part of the repository). -/
def cborHead (major n : Nat) : Str :=
  if n < 24 then [major * 32 + n]
  else if n < 2 ^ 8 then (major * 32 + 24) :: beBytes 1 n
  else if n < 2 ^ 16 then (major * 32 + 25) :: beBytes 2 n
  else if n < 2 ^ 32 then (major * 32 + 26) :: beBytes 4 n
  else (major * 32 + 27) :: beBytes 8 n

/-- Modelled from the spec: a Go `int` as a CBOR integer, major type 0 for a
non-negative value and major type 1 for a negative one. -/
def cborInt (v : Int) : Str :=
  if v < 0 then cborHead 1 (-1 - v).toNat else cborHead 0 v.toNat

/-- Modelled from the spec: a Go `string` as a CBOR text string (major type 3). -/
def cborText (s : Str) : Str := cborHead 3 s.length ++ s

/-- Modelled from the spec: the key-value pairs of `pTokenMap`, in the order in
which the map is ranged over. -/
def cborPairs : GoMap → Str
  | [] => []
  | (k, v) :: m => cborInt k ++ cborText v ++ cborPairs m

/-- Modelled from the spec: `map[int]string` as a CBOR map (major type 5); a nil
map is the CBOR null `0xf6`. -/
def cborTokenMap : Option GoMap → Str
  | none => [0xf6]
  | some m => cborHead 5 m.length ++ cborPairs m

/-- Modelled from the spec: `cbor.Marshal` on a `SpiderInfo`, a function of the
CBOR library that is not part of the repository. The record is a CBOR map of its
seven fields keyed by the names of the `cbor` struct tags: `startPage`, `gid`,
`token`, `previewPages`, `previewPerPage`, `pages`, `pTokenMap`. -/
def Marshal (i : SpiderInfo) : Str × Option Error :=
  (cborHead 5 7
    ++ cborText (ascii "startPage") ++ cborInt i.StartPage
    ++ cborText (ascii "gid") ++ cborInt i.GID
    ++ cborText (ascii "token") ++ cborText i.Token
    ++ cborText (ascii "previewPages") ++ cborInt i.PreviewPages
    ++ cborText (ascii "previewPerPage") ++ cborInt i.PreviewPerPage
    ++ cborText (ascii "pages") ++ cborInt i.Pages
    ++ cborText (ascii "pTokenMap") ++ cborTokenMap i.TokenMap, none)

/-- The library function `cbor.UnmarshalFirst(bytes, &info)`, a parameter of the
development: from the bytes and the record it is to fill, the record as the call
leaves it and the error it returns (the remaining bytes, its first result, are
discarded by the caller). -/
abbrev Unmarshaler := Str → SpiderInfo → SpiderInfo × Option Error

/-! ## `info.go`: the binary entry points and the format sniffing -/

/-- The method `SpiderInfo.ToCbor`. -/
def ToCbor (i : SpiderInfo) : Str × Option Error := Marshal i

/-- The function `NewInfoFromCbor`, on the bytes the reader delivers (`io.ReadAll`
on them does not fail). The record is returned together with whatever error
`UnmarshalFirst` reports. -/
def NewInfoFromCbor (UnmarshalFirst : Unmarshaler) (data : Str) : Result :=
  let bytes := data
  let info := SpiderInfo.zero
  let (info, err) := UnmarshalFirst bytes info
  (some info, err)

/-- An `io.ReadSeeker` over a byte sequence (a file): the content and the offset
of the next read. -/
structure ReadSeeker where
  data : Str
  off : Nat
  deriving DecidableEq, Repr

/-- The call `data.Read(p)` with `len(p) = n`: the bytes read, the error, and the
reader afterwards. At the end of the content nothing is read and the error is
`io.EOF`. -/
def ReadSeeker.Read (r : ReadSeeker) (n : Nat) : Str × Option Error × ReadSeeker :=
  let bs := (r.data.drop r.off).take n
  if n ≠ 0 ∧ bs = [] then ([], some .EOF, r)
  else (bs, none, { r with off := r.off + bs.length })

/-- The call `data.Seek(offset, io.SeekStart)`. -/
def ReadSeeker.SeekStart (r : ReadSeeker) (offset : Nat) : ReadSeeker :=
  { r with off := offset }

/-- The bytes a consumer reading the reader to its end receives. -/
def ReadSeeker.rest (r : ReadSeeker) : Str := r.data.drop r.off

/-- The function `NewInfo`. -/
def NewInfo (UnmarshalFirst : Unmarshaler) (data : ReadSeeker) : Result :=
  match data.Read 1 with
  | (_, some err, _) => (none, some err)
  | (head, none, data) =>
    let data := data.SeekStart 0
    let head0 := head.getD 0 0
    if head0 = 86 then NewInfoFromPlain data.rest
    else if head0 &&& 0xE0 = 0b10100000 then NewInfoFromCbor UnmarshalFirst data.rest
    else (none, some .errInvalidFormat)

/-- A reader positioned at the start of the bytes `b`. -/
def readerOf (b : Str) : ReadSeeker := { data := b, off := 0 }

/-- An `UnmarshalFirst` that rejects every input, for the closed examples. -/
def rejectAll : Unmarshaler := fun _ info => (info, some (.cborError 0))

/-! ## Vocabulary of the statements -/

/-- A text made of lines: every line followed by the newline byte. -/
def joinLines : List Str → Str
  | [] => []
  | l :: ls => l ++ 10 :: joinLines ls

/-- The first line of a text: the bytes before the first newline, or the whole
text when it has none. -/
def firstLine (input : Str) : Str := input.takeWhile (fun b => b != 10)

/-- The lines of the text `joinLines ls ++ tail`, where `tail` is the last line
when it lacks its newline and is empty otherwise. -/
def linesOf (ls : List Str) (tail : Str) : List Str :=
  ls ++ (if tail = [] then [] else [tail])

/-- Whether a call of `ParseUint` succeeded. -/
def parses (r : Except Error Nat) : Bool :=
  match r with
  | .ok _ => true
  | .error _ => false

/-- Whether the text of header line `i` (counted from 0) is well-formed for its
position: line 0 is `VERSION2`, the numeric lines parse. -/
def headerLineOk (i : Nat) (text : Str) : Bool :=
  match i with
  | 0 => decide (text = ascii "VERSION2")
  | 1 => parses (ParseUint text 16)
  | 2 => parses (ParseUint text 10)
  | 5 => parses (ParseUint text 10)
  | 6 => parses (ParseUint text 10)
  | 7 => parses (ParseUint text 10)
  | _ => true

/-! ### The stages of `NewInfoFromPlain`

The body of `NewInfoFromPlain` cut at its comments, one function per line read,
each continuing with the next. -/

/-- The loop over the mapping lines and the final return. -/
def stTokens (info : SpiderInfo) (rd : Str) : Result :=
  match tokenLoop rd.length rd [] with
  | .error err => (none, some err)
  | .ok m => (some { info with TokenMap := some m }, none)

/-- From the comment `pages` on. -/
def stPages (info : SpiderInfo) (rd : Str) : Result :=
  match Scan rd with
  | none => (none, some .errInvalidFormat)
  | some (text, rd) =>
  match ParseUint text 10 with
  | .error err => (none, some err)
  | .ok pages => stTokens { info with Pages := toInt pages } rd

/-- From the comment `previewPerPage` on. -/
def stPreviewPerPage (info : SpiderInfo) (rd : Str) : Result :=
  match Scan rd with
  | none => (none, some .errInvalidFormat)
  | some (text, rd) =>
  match ParseUint text 10 with
  | .error err => (none, some err)
  | .ok previewPerPage => stPages { info with PreviewPerPage := toInt previewPerPage } rd

/-- From the comment `previewPages` on. -/
def stPreviewPages (info : SpiderInfo) (rd : Str) : Result :=
  match Scan rd with
  | none => (none, some .errInvalidFormat)
  | some (text, rd) =>
  match ParseUint text 10 with
  | .error err => (none, some err)
  | .ok previewPages => stPreviewPerPage { info with PreviewPages := toInt previewPages } rd

/-- From the comment `mode, deprecated` on. -/
def stMode (info : SpiderInfo) (rd : Str) : Result :=
  match Scan rd with
  | none => (none, some .errInvalidFormat)
  | some (_, rd) => stPreviewPages info rd

/-- From the comment `token` on. -/
def stToken (info : SpiderInfo) (rd : Str) : Result :=
  match Scan rd with
  | none => (none, some .errInvalidFormat)
  | some (text, rd) => stMode { info with Token := text } rd

/-- From the comment `gid` on. -/
def stGid (info : SpiderInfo) (rd : Str) : Result :=
  match Scan rd with
  | none => (none, some .errInvalidFormat)
  | some (text, rd) =>
  match ParseUint text 10 with
  | .error err => (none, some err)
  | .ok gid => stToken { info with GID := toInt gid } rd

/-- From the comment `startPage` on. -/
def stStartPage (info : SpiderInfo) (rd : Str) : Result :=
  match Scan rd with
  | none => (none, some .errInvalidFormat)
  | some (text, rd) =>
  match ParseUint text 16 with
  | .error err => (none, some err)
  | .ok pageNum => stGid { info with StartPage := toInt pageNum } rd

/-- From the comment `VERSION2` on: the whole body. -/
def stVersion (rd : Str) : Result :=
  match Scan rd with
  | none => (none, some .errInvalidFormat)
  | some (text, rd) =>
  if text ≠ ascii "VERSION2" then (none, some .errInvalidFormat)
  else stStartPage SpiderInfo.zero rd

/-- The example record of the failing inputs: one entry, at index 3. -/
def sparseInfo : SpiderInfo :=
  { SpiderInfo.zero with TokenMap := some [(3, ascii "tok3")] }

/-- The example text of the specification. -/
def exampleText : Str :=
  ascii "VERSION2\n0000002a\n12345\nabctoken\n1\n2\n5\n100\n0 tok0\n3 tok3\n"

/-- The record the example text stands for. -/
def exampleInfo : SpiderInfo :=
  { StartPage := 42, GID := 12345, Token := ascii "abctoken", PreviewPages := 2,
    PreviewPerPage := 5, Pages := 100,
    TokenMap := some [(0, ascii "tok0"), (3, ascii "tok3")] }

/-- The line that `ToPlainText` writes at position `k` of its last loop. -/
def emittedEntry (m : GoMap) (k : Nat) : Str := fmtD (k : Int) ++ [32] ++ m.get (k : Int)

/-! ### Numerals -/

/-- The value of a decimal digit. -/
def decDigit (c : Byte) : Option Nat :=
  if 48 ≤ c ∧ c ≤ 57 then some (c - 48) else none

/-- The value of a hexadecimal digit, in either case. -/
def hexDigit (c : Byte) : Option Nat :=
  if 48 ≤ c ∧ c ≤ 57 then some (c - 48)
  else if 97 ≤ c ∧ c ≤ 102 then some (c - 97 + 10)
  else if 65 ≤ c ∧ c ≤ 70 then some (c - 65 + 10)
  else none

/-- The number that the digits `s` append to the number `n`, most significant digit
first; `none` when a byte is not a digit. -/
def numeralFrom (digit : Byte → Option Nat) (base : Nat) : Str → Nat → Option Nat
  | [], n => some n
  | c :: cs, n =>
    match digit c with
    | none => none
    | some d => numeralFrom digit base cs (n * base + d)

/-- The number a non-empty string of digits denotes. -/
def numeral (digit : Byte → Option Nat) (base : Nat) (s : Str) : Option Nat :=
  if s = [] then none else numeralFrom digit base s 0

/-- The number a decimal line denotes. -/
def decValue (s : Str) : Option Nat := numeral decDigit 10 s

/-- The number a line of hex digits denotes, read in base 16. -/
def hexValue (s : Str) : Option Nat := numeral hexDigit 16 s

/-! ### Mapping lines -/

/-- The index of a mapping line given as its two fields, the decimal index and
the token. -/
def entryKey (e : Str × Str) : Nat := (decValue e.1).getD 0

/-- The mapping line `<index> <token>`. -/
def entryLine (e : Str × Str) : Str := e.1 ++ 32 :: e.2

/-- A mapping line of the grammar: a decimal index below `2^63`, a token without
space or newline, no carriage return at the end of the line, and a length the
scanner can hold. -/
def EntryOk (e : Str × Str) : Prop :=
  (decValue e.1).isSome ∧ entryKey e < 2 ^ 63 ∧ 32 ∉ e.2 ∧ 10 ∉ e.2 ∧
    (entryLine e).getLast? ≠ some 13 ∧ (entryLine e).length < MaxScanTokenSize

instance (e : Str × Str) : Decidable (EntryOk e) := by
  unfold EntryOk; infer_instance

/-- The token line of the long-line example: 65536 bytes `a`. -/
def longToken : Str := List.replicate 65536 97

/-- The example text with a carriage return before every newline. -/
def crlfText : Str :=
  ascii "VERSION2\r\n0000002a\r\n12345\r\nabctoken\r\n1\r\n2\r\n5\r\n100\r\n"

/-! ### The decoder on the texts the scanner delivers -/

/-- The texts that successive calls of `rd.Scan()` deliver, until `Scan` returns
false; the first argument bounds the number of calls. -/
def scanAll : Nat → Str → List Str
  | 0, _ => []
  | fuel + 1, rd =>
    match Scan rd with
    | none => []
    | some (text, rd) => text :: scanAll fuel rd

/-- The body of the mapping loop of `NewInfoFromPlain`, run over the texts that
the scanner delivers. -/
def tokensOf : List Str → GoMap → Except Error GoMap
  | [], m => .ok m
  | text :: rest, m =>
    let arr := Split 32 text
    if arr.length ≠ 2 then .error .errInvalidFormat
    else
      match ParseUint (arr.getD 0 []) 10 with
      | .error err => .error err
      | .ok id => tokensOf rest (m.set (toInt id) (arr.getD 1 []))

/-- The mapping loop and the final return, on the delivered texts. -/
def dtTokens (info : SpiderInfo) (texts : List Str) : Result :=
  match tokensOf texts [] with
  | .error err => (none, some err)
  | .ok m => (some { info with TokenMap := some m }, none)

/-- The stage `pages`, on the delivered texts. -/
def dtPages (info : SpiderInfo) : List Str → Result
  | [] => (none, some .errInvalidFormat)
  | text :: rest =>
    match ParseUint text 10 with
    | .error err => (none, some err)
    | .ok pages => dtTokens { info with Pages := toInt pages } rest

/-- The stage `previewPerPage`, on the delivered texts. -/
def dtPreviewPerPage (info : SpiderInfo) : List Str → Result
  | [] => (none, some .errInvalidFormat)
  | text :: rest =>
    match ParseUint text 10 with
    | .error err => (none, some err)
    | .ok previewPerPage => dtPages { info with PreviewPerPage := toInt previewPerPage } rest

/-- The stage `previewPages`, on the delivered texts. -/
def dtPreviewPages (info : SpiderInfo) : List Str → Result
  | [] => (none, some .errInvalidFormat)
  | text :: rest =>
    match ParseUint text 10 with
    | .error err => (none, some err)
    | .ok previewPages => dtPreviewPerPage { info with PreviewPages := toInt previewPages } rest

/-- The stage `mode, deprecated`, on the delivered texts. -/
def dtMode (info : SpiderInfo) : List Str → Result
  | [] => (none, some .errInvalidFormat)
  | _ :: rest => dtPreviewPages info rest

/-- The stage `token`, on the delivered texts. -/
def dtToken (info : SpiderInfo) : List Str → Result
  | [] => (none, some .errInvalidFormat)
  | text :: rest => dtMode { info with Token := text } rest

/-- The stage `gid`, on the delivered texts. -/
def dtGid (info : SpiderInfo) : List Str → Result
  | [] => (none, some .errInvalidFormat)
  | text :: rest =>
    match ParseUint text 10 with
    | .error err => (none, some err)
    | .ok gid => dtToken { info with GID := toInt gid } rest

/-- The stage `startPage`, on the delivered texts. -/
def dtStartPage (info : SpiderInfo) : List Str → Result
  | [] => (none, some .errInvalidFormat)
  | text :: rest =>
    match ParseUint text 16 with
    | .error err => (none, some err)
    | .ok pageNum => dtGid { info with StartPage := toInt pageNum } rest

/-- The whole body of `NewInfoFromPlain`, on the delivered texts. -/
def dtVersion : List Str → Result
  | [] => (none, some .errInvalidFormat)
  | text :: rest =>
    if text ≠ ascii "VERSION2" then (none, some .errInvalidFormat)
    else dtStartPage SpiderInfo.zero rest

/-- The texts the scanner delivers on the text of the lines `linesOf ls tail`: the
lines up to the first one that does not fit its buffer, each less one terminal
carriage return. -/
def delivered (ls : List Str) (tail : Str) : List Str :=
  ((linesOf ls tail).takeWhile (fun l => decide (l.length < MaxScanTokenSize))).map dropCR

/-- Line number `n`, counted from 0, of a text: the piece number `n` between its
newline bytes. -/
def lineAt (n : Nat) (text : Str) : Str := (Split 10 text).getD n []

/-- A byte that is a lowercase hexadecimal digit. -/
def isLowerHex (c : Byte) : Bool := (decide (48 ≤ c) && decide (c ≤ 57)) || (decide (97 ≤ c) && decide (c ≤ 102))

/-- A header text in which the id and the index of a mapping line are `2^64 - 1`. -/
def wrapText : Str :=
  ascii "VERSION2\n00000000\n18446744073709551615\n\n1\n0\n0\n0\n9223372036854775808 tok\n"

/-- A record whose token holds a newline. -/
def newlineTokenInfo : SpiderInfo := { SpiderInfo.zero with Token := ascii "a\nb" }

/-- The index field of a mapping line: the bytes before its first space. -/
def mapIndex (text : Str) : Str := text.takeWhile (fun b => b != 32)

/-- The token field of a mapping line: the bytes after its first space. -/
def mapToken (text : Str) : Str := (text.dropWhile (fun b => b != 32)).drop 1

/-- A valid decimal index: a decimal numeral below `2^64`. -/
def validIndex (s : Str) : Bool :=
  match decValue s with
  | some v => decide (v < 2 ^ 64)
  | none => false

/-- The text of an integer field that is no numeral of its base, or denotes a
value of `2^64` or more; the argument is the value the text denotes. -/
def badNumber (v : Option Nat) : Bool :=
  match v with
  | some n => decide (2 ^ 64 ≤ n)
  | none => true

/-- A well-formed mapping line: exactly one space, and a valid decimal index
before it. -/
def mapLineOk (text : Str) : Bool :=
  decide (text.count 32 = 1) && validIndex (mapIndex text)

/-- A well-formed line at position `j` (counted from 0): a header line for
`j < 8`, a mapping line from there on. -/
def lineOk (j : Nat) (text : Str) : Bool :=
  if j < 8 then headerLineOk j text else mapLineOk text

/-- The positions that hold an integer field: `startPage`, `id`, the three
counts, and every mapping line. -/
def isIntField (j : Nat) : Bool :=
  decide (j = 1) || decide (j = 2) || decide (j = 5) || decide (j = 6) || decide (j = 7)
    || decide (8 ≤ j)

/-- The text of the integer field of the line at position `j`: the line for a
header field, the index for a mapping line. -/
def fieldText (j : Nat) (text : Str) : Str := if j < 8 then text else mapIndex text

/-- The number the text of the integer field at position `j` denotes: base 16
for `startPage`, base 10 otherwise. -/
def fieldValue (j : Nat) (s : Str) : Option Nat := if j = 1 then hexValue s else decValue s

/-- A run of 65536 bytes `x`: a line the scanner cannot hold. -/
def longLine : Str := List.replicate 65536 120

/-- The map that the mapping lines `es`, read in order, leave behind from `m`. -/
def foldEntries (es : List (Str × Str)) (m : GoMap) : GoMap :=
  es.foldl (fun m e => m.set (entryKey e : Int) e.2) m

/-- The example header followed by three mapping lines, two of them for index 0. -/
def duplicateText : Str :=
  ascii "VERSION2\n0000002a\n12345\nabctoken\n1\n2\n5\n100\n0 first\n3 tok3\n0 last\n"

/-- A record whose map has the keys 0 and 1, listed out of order. -/
def contiguousInfo : SpiderInfo :=
  { exampleInfo with TokenMap := some [(1, ascii "tok1"), (0, ascii "tok0")] }

/-! ## The decoder as its stages -/

theorem NewInfoFromPlain_eq_stages (data : Str) : NewInfoFromPlain data = stVersion data := rfl

/-! ## The shape of the output of `ToPlainText` -/

theorem ascii_VERSION2 : ascii "VERSION2" = [86, 69, 82, 83, 73, 79, 78, 50] := by decide

theorem ascii_VERSION2_nl : ascii "VERSION2\n" = [86, 69, 82, 83, 73, 79, 78, 50, 10] := by decide

theorem ascii_one_nl : ascii "1\n" = [49, 10] := by decide

theorem foldl_append_init {α β : Type} (f : α → List β) (init : List β) (l : List α) :
    l.foldl (fun sb k => sb ++ f k) init = init ++ l.foldl (fun sb k => sb ++ f k) [] := by
  induction l generalizing init with
  | nil => simp
  | cons a l ih =>
    simp only [List.foldl_cons, List.nil_append]
    rw [ih (init ++ f a), ih (f a), List.append_assoc]

theorem foldl_lines {α : Type} (f : α → Str) (l : List α) :
    l.foldl (fun sb k => sb ++ (f k ++ [10])) [] = joinLines (l.map f) := by
  induction l with
  | nil => rfl
  | cons a l ih =>
    simp only [List.foldl_cons, List.nil_append, List.map_cons, joinLines]
    rw [foldl_append_init, ih]
    simp

theorem joinLines_append (xs ys : List Str) :
    joinLines (xs ++ ys) = joinLines xs ++ joinLines ys := by
  induction xs with
  | nil => rfl
  | cons x xs ih => simp [joinLines, ih]

/-- The output of `ToPlainText`: eight header lines, then one line per position of
the slice of keys. -/
theorem ToPlainText_eq (i : SpiderInfo) :
    ToPlainText i =
      (joinLines [ascii "VERSION2", fmt08x i.StartPage, fmtD i.GID, i.Token, [49],
          fmtD i.PreviewPages, fmtD i.PreviewPerPage, fmtD i.Pages]
        ++ joinLines ((List.range (entries i.TokenMap).length).map
            (emittedEntry (entries i.TokenMap))), none) := by
  have h := foldl_lines (emittedEntry (entries i.TokenMap))
    (List.range (entries i.TokenMap).length)
  simp only [emittedEntry] at h
  simp only [ToPlainText, List.length_map]
  rw [foldl_append_init, h]
  simp [joinLines, ascii_VERSION2_nl, ascii_VERSION2, ascii_one_nl]

/-! ## Format sniffing -/

theorem Read_one_cons (c : Byte) (rest : Str) :
    (readerOf (c :: rest)).Read 1 = ([c], none, { data := c :: rest, off := 1 }) := by
  simp [ReadSeeker.Read, readerOf]

theorem NewInfo_cons (U : Unmarshaler) (c : Byte) (rest : Str) :
    NewInfo U (readerOf (c :: rest)) =
      if c = 86 then NewInfoFromPlain (c :: rest)
      else if c &&& 0xE0 = 0b10100000 then NewInfoFromCbor U (c :: rest)
      else (none, some .errInvalidFormat) := by
  simp [NewInfo, Read_one_cons, ReadSeeker.SeekStart, ReadSeeker.rest]

/-- C3. Format dispatch: on a non-empty input whose first byte is `'V'`, `NewInfo`
returns what `NewInfoFromPlain` returns on the whole input; otherwise, when the
top three bits of the first byte are `101`, it returns what `NewInfoFromCbor`
returns on the whole input. -/
theorem NewInfo_dispatch (U : Unmarshaler) (b : Str) (c : Byte) (hc : b.head? = some c) :
    (c = 86 → NewInfo U (readerOf b) = NewInfoFromPlain b) ∧
    (c ≠ 86 → c &&& 0xE0 = 0xA0 → NewInfo U (readerOf b) = NewInfoFromCbor U b) := by
  cases b with
  | nil => simp at hc
  | cons x rest =>
    simp only [List.head?_cons, Option.some.injEq] at hc
    subst hc
    rw [NewInfo_cons]
    constructor
    · intro h; simp [h]
    · intro h1 h2; simp [h1, h2]

theorem NewInfo_dispatch_witness :
    ((ascii "VERSION2\n").head? = some 86 ∧
      NewInfo rejectAll (readerOf (ascii "VERSION2\n")) = NewInfoFromPlain (ascii "VERSION2\n")) ∧
    (([0xA7, 0x00] : Str).head? = some 0xA7 ∧
      NewInfo rejectAll (readerOf [0xA7, 0x00]) = NewInfoFromCbor rejectAll [0xA7, 0x00]) :=
  ⟨⟨by decide, (NewInfo_dispatch rejectAll (ascii "VERSION2\n") 86 (by decide)).1 rfl⟩,
   ⟨by decide, (NewInfo_dispatch rejectAll [0xA7, 0x00] 0xA7 (by decide)).2 (by decide) (by decide)⟩⟩

theorem cborHead_map7 : cborHead 5 7 = [0xA7] := by decide

theorem ToCbor_eq_cons (R : SpiderInfo) : ∃ tl, ToCbor R = (0xA7 :: tl, none) := by
  simp only [ToCbor, Marshal, cborHead_map7]
  exact ⟨_, by simp; rfl⟩

/-- C4. Format detection on encoder output: on the bytes of `R.ToPlainText()`,
`NewInfo` returns what `NewInfoFromPlain` returns on them; `R.ToCbor()` succeeds,
its first byte has the top three bits `101`, and on its bytes `NewInfo` returns
what `NewInfoFromCbor` returns on them. -/
theorem NewInfo_on_encoder_output (U : Unmarshaler) (R : SpiderInfo) :
    NewInfo U (readerOf (ToPlainText R).1) = NewInfoFromPlain (ToPlainText R).1 ∧
    (ToCbor R).2 = none ∧
    (∃ c, (ToCbor R).1.head? = some c ∧ c &&& 0xE0 = 0xA0) ∧
    NewInfo U (readerOf (ToCbor R).1) = NewInfoFromCbor U (ToCbor R).1 := by
  obtain ⟨tl, htl⟩ := ToCbor_eq_cons R
  refine ⟨?_, ?_, ?_, ?_⟩
  · rw [ToPlainText_eq]
    simp only [joinLines, ascii_VERSION2, List.cons_append]
    rw [NewInfo_cons]
    simp
  · rw [htl]
  · rw [htl]
    exact ⟨0xA7, rfl, by decide⟩
  · rw [htl]
    show NewInfo U (readerOf (0xA7 :: tl)) = _
    rw [NewInfo_cons, if_neg (by decide), if_pos (by decide)]

/-- C8, as the code has it. An input whose first byte is neither `'V'` nor has the
top three bits `101` yields no record and the error `errInvalidFormat`, the very
error value that `NewInfoFromPlain` returns for a text without the `VERSION2`
header. -/
theorem NewInfo_unrecognized (U : Unmarshaler) (b : Str) (c : Byte)
    (hc : b.head? = some c) (hV : c ≠ 86) (hM : c &&& 0xE0 ≠ 0xA0) :
    NewInfo U (readerOf b) = (none, some Error.errInvalidFormat) ∧
    (NewInfo U (readerOf b)).2 = (NewInfoFromPlain (ascii "VERSION1\n")).2 := by
  cases b with
  | nil => simp at hc
  | cons x rest =>
    simp only [List.head?_cons, Option.some.injEq] at hc
    subst hc
    rw [NewInfo_cons]
    rw [if_neg hV, if_neg hM]
    exact ⟨rfl, by decide⟩

theorem NewInfo_unrecognized_witness :
    ([0x00] : Str).head? = some 0x00 ∧
    NewInfo rejectAll (readerOf [0x00]) = (none, some Error.errInvalidFormat) :=
  ⟨by decide, (NewInfo_unrecognized rejectAll [0x00] 0x00 (by decide) (by decide) (by decide)).1⟩

/-- C8, as stated, fails: on the first byte `0x00` the error of `NewInfo` is the
same value as the error of `NewInfoFromPlain` on a grammar violation. -/
theorem unrecognized_error_not_distinct :
    NewInfo rejectAll (readerOf [0x00]) = (none, some Error.errInvalidFormat) ∧
    NewInfoFromPlain (ascii "VERSION1\n") = (none, some Error.errInvalidFormat) ∧
    (NewInfo rejectAll (readerOf [0x00])).2 = (NewInfoFromPlain (ascii "VERSION1\n")).2 := by
  decide

/-! ## The loop over positions in `ToPlainText` -/

/-- C2, at the failing input. For the record whose map is `{3: "tok3"}` the only
line after the header is `0 ` (position 0 and the zero value of the map at 0),
where the claim has the line `3 tok3`. -/
theorem ToPlainText_sparse :
    (ToPlainText sparseInfo).1 = ascii "VERSION2\n00000000\n0\n\n1\n0\n0\n0\n0 \n" ∧
    (ToPlainText sparseInfo).1 ≠ ascii "VERSION2\n00000000\n0\n\n1\n0\n0\n0\n3 tok3\n" := by
  decide

/-- C1, at the failing input. The record whose map is `{3: "tok3"}` is encoded and
decoded again to a record whose map is `{0: ""}`: the pair `(3, "tok3")` is lost. -/
theorem roundtrip_sparse :
    NewInfoFromPlain (ToPlainText sparseInfo).1
      = (some { sparseInfo with TokenMap := some [(0, [])] }, none) ∧
    NewInfoFromPlain (ToPlainText sparseInfo).1 ≠ (some sparseInfo, none) := by
  decide

/-- C7, at the failing input. The example text of the specification decodes to the
example record, and encoding that record gives a text whose last line is `1 `
where the input has `3 tok3`. -/
theorem reencode_example :
    NewInfoFromPlain exampleText = (some exampleInfo, none) ∧
    (ToPlainText exampleInfo).1
      = ascii "VERSION2\n0000002a\n12345\nabctoken\n1\n2\n5\n100\n0 tok0\n1 \n" ∧
    (ToPlainText exampleInfo).1 ≠ exampleText := by
  decide

/-! ## Lines and the scanner -/


theorem takeWhile_line (l rest : Str) (h : 10 ∉ l) :
    (l ++ 10 :: rest).takeWhile (fun b => b != 10) = l := by
  induction l with
  | nil => simp [List.takeWhile]
  | cons a l ih =>
    have ha : (a != 10) = true := by
      have : a ≠ 10 := fun e => h (by simp [e])
      simpa using this
    have hl : 10 ∉ l := fun e => h (by simp [e])
    simp [List.takeWhile, ha, ih hl]

theorem dropWhile_line (l rest : Str) (h : 10 ∉ l) :
    (l ++ 10 :: rest).dropWhile (fun b => b != 10) = 10 :: rest := by
  induction l with
  | nil => simp [List.dropWhile]
  | cons a l ih =>
    have ha : (a != 10) = true := by
      have : a ≠ 10 := fun e => h (by simp [e])
      simpa using this
    have hl : 10 ∉ l := fun e => h (by simp [e])
    simp [List.dropWhile, ha, ih hl]

theorem takeWhile_last (l : Str) (h : 10 ∉ l) :
    l.takeWhile (fun b => b != 10) = l := by
  induction l with
  | nil => rfl
  | cons a l ih =>
    have ha : (a != 10) = true := by
      have : a ≠ 10 := fun e => h (by simp [e])
      simpa using this
    have hl : 10 ∉ l := fun e => h (by simp [e])
    simp [List.takeWhile, ha, ih hl]

theorem dropWhile_last (l : Str) (h : 10 ∉ l) :
    l.dropWhile (fun b => b != 10) = [] := by
  induction l with
  | nil => rfl
  | cons a l ih =>
    have ha : (a != 10) = true := by
      have : a ≠ 10 := fun e => h (by simp [e])
      simpa using this
    have hl : 10 ∉ l := fun e => h (by simp [e])
    simp [List.dropWhile, ha, ih hl]

/-- `Scan` on a line with its newline. -/
theorem Scan_line (l rest : Str) (h : 10 ∉ l) :
    Scan (l ++ 10 :: rest) =
      if l.length + 1 ≤ MaxScanTokenSize then some (dropCR l, rest) else none := by
  simp only [Scan, takeWhile_line l rest h, dropWhile_line l rest h]

/-- `Scan` on a last line without newline. -/
theorem Scan_last (l : Str) (h : 10 ∉ l) :
    Scan l =
      if l = [] then none
      else if l.length < MaxScanTokenSize then some (dropCR l, []) else none := by
  simp only [Scan, takeWhile_last l h, dropWhile_last l h]

theorem Scan_nil : Scan [] = none := rfl

/-- Whatever `Scan` returns as text is the first line less one carriage return. -/
theorem Scan_text (rd text rest : Str) (h : Scan rd = some (text, rest)) :
    text = dropCR (firstLine rd) := by
  unfold Scan at h
  simp only [firstLine]
  split at h
  · dsimp only at h
    split at h
    · simp only [Option.some.injEq, Prod.mk.injEq] at h; exact h.1.symm
    · simp at h
  · dsimp only at h
    split at h
    · simp at h
    · split at h
      · simp only [Option.some.injEq, Prod.mk.injEq] at h; exact h.1.symm
      · simp at h

/-- C9, as the code has it. A text whose first line, less one terminal carriage
return, is not `VERSION2` (the empty text included) yields no record and the error
`errInvalidFormat`. -/
theorem header_rejected (input : Str)
    (h : dropCR (firstLine input) ≠ ascii "VERSION2") :
    NewInfoFromPlain input = (none, some Error.errInvalidFormat) := by
  rw [NewInfoFromPlain_eq_stages]
  unfold stVersion
  cases hS : Scan input with
  | none => rfl
  | some p =>
    obtain ⟨text, rest⟩ := p
    have ht := Scan_text input text rest hS
    subst ht
    simp [h]

theorem parses_ok (r : Except Error Nat) (h : parses r = true) : ∃ v, r = .ok v := by
  cases r with
  | ok v => exact ⟨v, rfl⟩
  | error e => simp [parses] at h

theorem linesOf_cons (l : Str) (ls : List Str) (tail : Str) :
    linesOf (l :: ls) tail = l :: linesOf ls tail := rfl

theorem linesOf_nil_nil : linesOf [] [] = [] := rfl

/-- One `Scan` on a text given by its lines: it fails, or it returns the first line
and leaves the text of the other lines. -/
theorem Scan_lines_cases (ls : List Str) (tail : Str)
    (hls : ∀ l ∈ ls, 10 ∉ l) (htail : 10 ∉ tail) :
    Scan (joinLines ls ++ tail) = none ∨
    ∃ l ls1 tail1, Scan (joinLines ls ++ tail) = some (dropCR l, joinLines ls1 ++ tail1) ∧
      (∀ x ∈ ls1, 10 ∉ x) ∧ 10 ∉ tail1 ∧ linesOf ls tail = l :: linesOf ls1 tail1 := by
  cases ls with
  | nil =>
    simp only [joinLines, List.nil_append]
    rw [Scan_last tail htail]
    by_cases ht : tail = []
    · left; simp [ht]
    · by_cases hlen : tail.length < MaxScanTokenSize
      · right
        refine ⟨tail, [], [], ?_, by simp, by simp, ?_⟩
        · simp [ht, hlen, joinLines]
        · simp [linesOf, ht]
      · left; simp [ht, hlen]
  | cons l ls =>
    have hl : 10 ∉ l := hls l (by simp)
    have hrest : ∀ x ∈ ls, 10 ∉ x := fun x hx => hls x (by simp [hx])
    simp only [joinLines, List.append_assoc, List.cons_append]
    rw [Scan_line l _ hl]
    by_cases hlen : l.length + 1 ≤ MaxScanTokenSize
    · right
      exact ⟨l, ls, tail, by simp [hlen], hrest, htail, linesOf_cons l ls tail⟩
    · left; simp [hlen]

theorem stPages_truncated (info : SpiderInfo) (ls : List Str) (tail : Str)
    (hls : ∀ l ∈ ls, 10 ∉ l) (htail : 10 ∉ tail)
    (hlen : (linesOf ls tail).length < 1) :
    stPages info (joinLines ls ++ tail) = (none, some Error.errInvalidFormat) := by
  unfold stPages
  rcases Scan_lines_cases ls tail hls htail with h | ⟨l, ls1, tail1, h, -, -, hl⟩
  · rw [h]
  · rw [hl] at hlen; simp at hlen

theorem stPreviewPerPage_truncated (info : SpiderInfo) (ls : List Str) (tail : Str)
    (hls : ∀ l ∈ ls, 10 ∉ l) (htail : 10 ∉ tail)
    (hlen : (linesOf ls tail).length < 2)
    (hok : ∀ j l, (linesOf ls tail)[j]? = some l → headerLineOk (j + 6) (dropCR l)) :
    stPreviewPerPage info (joinLines ls ++ tail) = (none, some Error.errInvalidFormat) := by
  unfold stPreviewPerPage
  rcases Scan_lines_cases ls tail hls htail with h | ⟨l, ls1, tail1, h, h1, h2, hl⟩
  · rw [h]
  · rw [h]
    have hlen1 : (linesOf ls1 tail1).length < 1 := by
      rw [hl, List.length_cons] at hlen; omega
    have hok1 : ∀ j x, (linesOf ls1 tail1)[j]? = some x →
        headerLineOk (j + 7) (dropCR x) = true := by
      intro j x hx
      have := hok (j + 1) x (by rw [hl]; simpa using hx)
      exact this
    have h0 := hok 0 l (by rw [hl]; simp)
    obtain ⟨v, hv⟩ : ∃ v, ParseUint (dropCR l) 10 = .ok v := parses_ok _ h0
    simp only [hv]
    exact stPages_truncated _ ls1 tail1 h1 h2 hlen1

theorem stPreviewPages_truncated (info : SpiderInfo) (ls : List Str) (tail : Str)
    (hls : ∀ l ∈ ls, 10 ∉ l) (htail : 10 ∉ tail)
    (hlen : (linesOf ls tail).length < 3)
    (hok : ∀ j l, (linesOf ls tail)[j]? = some l → headerLineOk (j + 5) (dropCR l)) :
    stPreviewPages info (joinLines ls ++ tail) = (none, some Error.errInvalidFormat) := by
  unfold stPreviewPages
  rcases Scan_lines_cases ls tail hls htail with h | ⟨l, ls1, tail1, h, h1, h2, hl⟩
  · rw [h]
  · rw [h]
    have hlen1 : (linesOf ls1 tail1).length < 2 := by
      rw [hl, List.length_cons] at hlen; omega
    have hok1 : ∀ j x, (linesOf ls1 tail1)[j]? = some x →
        headerLineOk (j + 6) (dropCR x) = true := by
      intro j x hx
      have := hok (j + 1) x (by rw [hl]; simpa using hx)
      exact this
    have h0 := hok 0 l (by rw [hl]; simp)
    obtain ⟨v, hv⟩ : ∃ v, ParseUint (dropCR l) 10 = .ok v := parses_ok _ h0
    simp only [hv]
    exact stPreviewPerPage_truncated _ ls1 tail1 h1 h2 hlen1 hok1

theorem stMode_truncated (info : SpiderInfo) (ls : List Str) (tail : Str)
    (hls : ∀ l ∈ ls, 10 ∉ l) (htail : 10 ∉ tail)
    (hlen : (linesOf ls tail).length < 4)
    (hok : ∀ j l, (linesOf ls tail)[j]? = some l → headerLineOk (j + 4) (dropCR l)) :
    stMode info (joinLines ls ++ tail) = (none, some Error.errInvalidFormat) := by
  unfold stMode
  rcases Scan_lines_cases ls tail hls htail with h | ⟨l, ls1, tail1, h, h1, h2, hl⟩
  · rw [h]
  · rw [h]
    have hlen1 : (linesOf ls1 tail1).length < 3 := by
      rw [hl, List.length_cons] at hlen; omega
    have hok1 : ∀ j x, (linesOf ls1 tail1)[j]? = some x →
        headerLineOk (j + 5) (dropCR x) = true := by
      intro j x hx
      have := hok (j + 1) x (by rw [hl]; simpa using hx)
      exact this
    have h0 := hok 0 l (by rw [hl]; simp)
    exact stPreviewPages_truncated _ ls1 tail1 h1 h2 hlen1 hok1

theorem stToken_truncated (info : SpiderInfo) (ls : List Str) (tail : Str)
    (hls : ∀ l ∈ ls, 10 ∉ l) (htail : 10 ∉ tail)
    (hlen : (linesOf ls tail).length < 5)
    (hok : ∀ j l, (linesOf ls tail)[j]? = some l → headerLineOk (j + 3) (dropCR l)) :
    stToken info (joinLines ls ++ tail) = (none, some Error.errInvalidFormat) := by
  unfold stToken
  rcases Scan_lines_cases ls tail hls htail with h | ⟨l, ls1, tail1, h, h1, h2, hl⟩
  · rw [h]
  · rw [h]
    have hlen1 : (linesOf ls1 tail1).length < 4 := by
      rw [hl, List.length_cons] at hlen; omega
    have hok1 : ∀ j x, (linesOf ls1 tail1)[j]? = some x →
        headerLineOk (j + 4) (dropCR x) = true := by
      intro j x hx
      have := hok (j + 1) x (by rw [hl]; simpa using hx)
      exact this
    have h0 := hok 0 l (by rw [hl]; simp)
    exact stMode_truncated _ ls1 tail1 h1 h2 hlen1 hok1

theorem stGid_truncated (info : SpiderInfo) (ls : List Str) (tail : Str)
    (hls : ∀ l ∈ ls, 10 ∉ l) (htail : 10 ∉ tail)
    (hlen : (linesOf ls tail).length < 6)
    (hok : ∀ j l, (linesOf ls tail)[j]? = some l → headerLineOk (j + 2) (dropCR l)) :
    stGid info (joinLines ls ++ tail) = (none, some Error.errInvalidFormat) := by
  unfold stGid
  rcases Scan_lines_cases ls tail hls htail with h | ⟨l, ls1, tail1, h, h1, h2, hl⟩
  · rw [h]
  · rw [h]
    have hlen1 : (linesOf ls1 tail1).length < 5 := by
      rw [hl, List.length_cons] at hlen; omega
    have hok1 : ∀ j x, (linesOf ls1 tail1)[j]? = some x →
        headerLineOk (j + 3) (dropCR x) = true := by
      intro j x hx
      have := hok (j + 1) x (by rw [hl]; simpa using hx)
      exact this
    have h0 := hok 0 l (by rw [hl]; simp)
    obtain ⟨v, hv⟩ : ∃ v, ParseUint (dropCR l) 10 = .ok v := parses_ok _ h0
    simp only [hv]
    exact stToken_truncated _ ls1 tail1 h1 h2 hlen1 hok1

theorem stStartPage_truncated (info : SpiderInfo) (ls : List Str) (tail : Str)
    (hls : ∀ l ∈ ls, 10 ∉ l) (htail : 10 ∉ tail)
    (hlen : (linesOf ls tail).length < 7)
    (hok : ∀ j l, (linesOf ls tail)[j]? = some l → headerLineOk (j + 1) (dropCR l)) :
    stStartPage info (joinLines ls ++ tail) = (none, some Error.errInvalidFormat) := by
  unfold stStartPage
  rcases Scan_lines_cases ls tail hls htail with h | ⟨l, ls1, tail1, h, h1, h2, hl⟩
  · rw [h]
  · rw [h]
    have hlen1 : (linesOf ls1 tail1).length < 6 := by
      rw [hl, List.length_cons] at hlen; omega
    have hok1 : ∀ j x, (linesOf ls1 tail1)[j]? = some x →
        headerLineOk (j + 2) (dropCR x) = true := by
      intro j x hx
      have := hok (j + 1) x (by rw [hl]; simpa using hx)
      exact this
    have h0 := hok 0 l (by rw [hl]; simp)
    obtain ⟨v, hv⟩ : ∃ v, ParseUint (dropCR l) 16 = .ok v := parses_ok _ h0
    simp only [hv]
    exact stGid_truncated _ ls1 tail1 h1 h2 hlen1 hok1

theorem stVersion_truncated (ls : List Str) (tail : Str)
    (hls : ∀ l ∈ ls, 10 ∉ l) (htail : 10 ∉ tail)
    (hlen : (linesOf ls tail).length < 8)
    (hok : ∀ j l, (linesOf ls tail)[j]? = some l → headerLineOk (j + 0) (dropCR l)) :
    stVersion (joinLines ls ++ tail) = (none, some Error.errInvalidFormat) := by
  unfold stVersion
  rcases Scan_lines_cases ls tail hls htail with h | ⟨l, ls1, tail1, h, h1, h2, hl⟩
  · rw [h]
  · rw [h]
    have hlen1 : (linesOf ls1 tail1).length < 7 := by
      rw [hl, List.length_cons] at hlen; omega
    have hok1 : ∀ j x, (linesOf ls1 tail1)[j]? = some x →
        headerLineOk (j + 1) (dropCR x) = true := by
      intro j x hx
      have := hok (j + 1) x (by rw [hl]; simpa using hx)
      exact this
    have h0 := hok 0 l (by rw [hl]; simp)
    have h0p : dropCR l = ascii "VERSION2" := of_decide_eq_true h0
    simp only [h0p, ne_eq, not_true_eq_false, if_false]
    exact stStartPage_truncated _ ls1 tail1 h1 h2 hlen1 hok1

/-- Every text is a sequence of newline-terminated lines followed by a last line
without newline, possibly empty. -/
theorem text_decomposition (input : Str) :
    ∃ ls tail, input = joinLines ls ++ tail ∧ (∀ l ∈ ls, 10 ∉ l) ∧ 10 ∉ tail := by
  induction input with
  | nil => exact ⟨[], [], rfl, by simp, by simp⟩
  | cons c cs ih =>
    obtain ⟨ls, tail, h, hls, htail⟩ := ih
    by_cases hc : c = 10
    · refine ⟨[] :: ls, tail, by simp [joinLines, h, hc], ?_, htail⟩
      intro l hl
      rcases List.mem_cons.1 hl with rfl | hl
      · simp
      · exact hls l hl
    · cases ls with
      | nil =>
        refine ⟨[], c :: tail, by simp [joinLines, h], by simp, ?_⟩
        intro hmem
        rcases List.mem_cons.1 hmem with e | e
        · exact hc e.symm
        · exact htail e
      | cons l ls =>
        refine ⟨(c :: l) :: ls, tail, by simp [joinLines, h], ?_, htail⟩
        intro x hx
        rcases List.mem_cons.1 hx with rfl | hx
        · intro hmem
          rcases List.mem_cons.1 hmem with e | e
          · exact hc e.symm
          · exact hls l (by simp) e
        · exact hls x (by simp [hx])

/-- C10. Truncated input: a text with fewer than 8 lines, each well-formed for its
position, yields no record and the error `errInvalidFormat`. The text is given by
its newline-terminated lines `ls` and its last line `tail` without newline (empty
when there is none). -/
theorem truncated_rejected (ls : List Str) (tail : Str)
    (hls : ∀ l ∈ ls, 10 ∉ l) (htail : 10 ∉ tail)
    (hlen : (linesOf ls tail).length < 8)
    (hok : ∀ j l, (linesOf ls tail)[j]? = some l → headerLineOk j (dropCR l) = true) :
    NewInfoFromPlain (joinLines ls ++ tail) = (none, some Error.errInvalidFormat) := by
  rw [NewInfoFromPlain_eq_stages]
  exact stVersion_truncated ls tail hls htail hlen hok

theorem truncated_rejected_witness :
    NewInfoFromPlain (joinLines [ascii "VERSION2", ascii "0000002a", ascii "12345"]
        ++ ascii "abctoken") = (none, some Error.errInvalidFormat) :=
  truncated_rejected [ascii "VERSION2", ascii "0000002a", ascii "12345"] (ascii "abctoken")
    (by decide) (by decide) (by decide)
    (by
      intro j l h
      have hL : linesOf [ascii "VERSION2", ascii "0000002a", ascii "12345"] (ascii "abctoken")
          = [ascii "VERSION2", ascii "0000002a", ascii "12345", ascii "abctoken"] := by decide
      rw [hL] at h
      match j with
      | 0 => simp at h; subst h; decide
      | 1 => simp at h; subst h; decide
      | 2 => simp at h; subst h; decide
      | 3 => rfl
      | j + 4 => simp at h)

theorem header_rejected_witness :
    dropCR (firstLine (ascii "VERSION3\n0000002a\n")) ≠ ascii "VERSION2" ∧
    NewInfoFromPlain (ascii "VERSION3\n0000002a\n") = (none, some Error.errInvalidFormat) :=
  ⟨by decide, header_rejected (ascii "VERSION3\n0000002a\n") (by decide)⟩

/-- C9, as stated, fails: the bytes before the first newline are `VERSION2` and a
carriage return, not exactly `VERSION2`, and the text is decoded. -/
theorem header_crlf_accepted :
    firstLine crlfText ≠ ascii "VERSION2" ∧
    NewInfoFromPlain crlfText =
      (some { exampleInfo with TokenMap := some [] }, none) := by
  decide

/-! ## Decoding a text of the grammar -/


theorem decDigit_digitVal (c d : Nat) (h : decDigit c = some d) :
    digitVal c = some d ∧ d < 10 ∧ 48 ≤ c ∧ c ≤ 57 := by
  unfold decDigit at h
  split at h
  · rename_i hc
    have hc1 : (48 : Nat) ≤ c := hc.1
    have hc2 : c ≤ (57 : Nat) := hc.2
    simp only [Option.some.injEq] at h
    refine ⟨by simp [digitVal, hc, h], by omega, hc1, hc2⟩
  · simp at h

theorem lower_lowercase (c : Nat) (h1 : 97 ≤ c) (h2 : c ≤ 102) : lower c = c := by
  unfold lower
  interval_cases c <;> rfl

theorem lower_uppercase (c : Nat) (h1 : 65 ≤ c) (h2 : c ≤ 70) : lower c = c + 32 := by
  unfold lower
  interval_cases c <;> rfl

theorem hexDigit_digitVal (c d : Nat) (h : hexDigit c = some d) :
    digitVal c = some d ∧ d < 16 ∧ 48 ≤ c ∧ c ≤ 102 := by
  unfold hexDigit at h
  split at h
  · rename_i hc
    have hc1 : (48 : Nat) ≤ c := hc.1
    have hc2 : c ≤ (57 : Nat) := hc.2
    simp only [Option.some.injEq] at h
    refine ⟨by simp [digitVal, hc, h], by omega, by omega, by omega⟩
  · rename_i hc
    split at h
    · rename_i hc2
      have hc3 : (97 : Nat) ≤ c := hc2.1
      have hc4 : c ≤ (102 : Nat) := hc2.2
      simp only [Option.some.injEq] at h
      have hl := lower_lowercase c hc3 hc4
      refine ⟨?_, by omega, by omega, by omega⟩
      have hcond : 97 ≤ c ∧ c ≤ 122 := ⟨hc3, by omega⟩
      unfold digitVal
      rw [if_neg hc, hl, if_pos hcond, h]
    · split at h
      · rename_i hc2
        have hc3 : (65 : Nat) ≤ c := hc2.1
        have hc4 : c ≤ (70 : Nat) := hc2.2
        simp only [Option.some.injEq] at h
        have hl := lower_uppercase c hc3 hc4
        refine ⟨?_, by omega, by omega, by omega⟩
        have hcond : 97 ≤ c + 32 ∧ c + 32 ≤ 122 := ⟨by omega, by omega⟩
        have hval : c + 32 - 97 + 10 = d := by omega
        unfold digitVal
        rw [if_neg hc, hl, if_pos hcond, hval]
      · simp at h

theorem numeralFrom_ge (digit : Byte → Option Nat) (base : Nat) (hb : 1 ≤ base)
    (s : Str) (n v : Nat) (h : numeralFrom digit base s n = some v) : n ≤ v := by
  induction s generalizing n with
  | nil => simp [numeralFrom] at h; omega
  | cons c cs ih =>
    unfold numeralFrom at h
    split at h
    · simp at h
    · have := ih _ h
      have : n ≤ n * base := Nat.le_mul_of_pos_right n hb
      omega

theorem parseLoop_dec (s0 s : Str) (n v : Nat)
    (h : numeralFrom decDigit 10 s n = some v) (hv : v < 2 ^ 64) :
    parseLoop s0 10 s n = .ok v := by
  induction s generalizing n with
  | nil => simp [numeralFrom] at h; simp [parseLoop, h]
  | cons c cs ih =>
    unfold numeralFrom at h
    split at h
    · simp at h
    · rename_i d hd
      obtain ⟨hdv, hd10, -, -⟩ := decDigit_digitVal c d hd
      have hge := numeralFrom_ge decDigit 10 (by omega) cs _ v h
      unfold parseLoop
      simp only [hdv, maxUint64]
      rw [if_neg (by omega), if_neg (by omega)]
      have e1 : n * 10 % 2 ^ 64 = n * 10 := Nat.mod_eq_of_lt (by omega)
      have e2 : (n * 10 + d) % 2 ^ 64 = n * 10 + d := Nat.mod_eq_of_lt (by omega)
      simp only [e1, e2]
      rw [if_neg (by omega)]
      exact ih _ h

theorem parseLoop_hex (s0 s : Str) (n v : Nat)
    (h : numeralFrom hexDigit 16 s n = some v) (hv : v < 2 ^ 64) :
    parseLoop s0 16 s n = .ok v := by
  induction s generalizing n with
  | nil => simp [numeralFrom] at h; simp [parseLoop, h]
  | cons c cs ih =>
    unfold numeralFrom at h
    split at h
    · simp at h
    · rename_i d hd
      obtain ⟨hdv, hd16, -, -⟩ := hexDigit_digitVal c d hd
      have hge := numeralFrom_ge hexDigit 16 (by omega) cs _ v h
      unfold parseLoop
      simp only [hdv, maxUint64]
      rw [if_neg (by omega), if_neg (by omega)]
      have e1 : n * 16 % 2 ^ 64 = n * 16 := Nat.mod_eq_of_lt (by omega)
      have e2 : (n * 16 + d) % 2 ^ 64 = n * 16 + d := Nat.mod_eq_of_lt (by omega)
      simp only [e1, e2]
      rw [if_neg (by omega)]
      exact ih _ h

theorem ParseUint_dec (s : Str) (v : Nat) (h : decValue s = some v) (hv : v < 2 ^ 64) :
    ParseUint s 10 = .ok v := by
  unfold decValue numeral at h
  unfold ParseUint
  split at h
  · simp at h
  · rename_i hs
    rw [if_neg hs]
    exact parseLoop_dec s s 0 v h hv

theorem ParseUint_hex (s : Str) (v : Nat) (h : hexValue s = some v) (hv : v < 2 ^ 64) :
    ParseUint s 16 = .ok v := by
  unfold hexValue numeral at h
  unfold ParseUint
  split at h
  · simp at h
  · rename_i hs
    rw [if_neg hs]
    exact parseLoop_hex s s 0 v h hv

theorem toInt_small (v : Nat) (h : v < 2 ^ 63) : toInt v = (v : Int) := by
  unfold toInt
  have e : v % 2 ^ 64 = v := Nat.mod_eq_of_lt (by omega)
  rw [e, if_pos h]

theorem numeralFrom_digits (digit : Byte → Option Nat) (base : Nat) (s : Str) (n v : Nat)
    (h : numeralFrom digit base s n = some v) : ∀ c ∈ s, ∃ d, digit c = some d := by
  induction s generalizing n with
  | nil => simp
  | cons c cs ih =>
    unfold numeralFrom at h
    split at h
    · simp at h
    · rename_i d hd
      intro x hx
      rcases List.mem_cons.1 hx with rfl | hx
      · exact ⟨d, hd⟩
      · exact ih _ h x hx

theorem decValue_bytes (s : Str) (v : Nat) (h : decValue s = some v) :
    s ≠ [] ∧ ∀ c ∈ s, 48 ≤ c ∧ c ≤ 57 := by
  unfold decValue numeral at h
  split at h
  · simp at h
  · rename_i hs
    refine ⟨hs, fun c hc => ?_⟩
    obtain ⟨d, hd⟩ := numeralFrom_digits _ _ s 0 v h c hc
    obtain ⟨-, -, h1, h2⟩ := decDigit_digitVal c d hd
    exact ⟨h1, h2⟩

theorem hexValue_bytes (s : Str) (v : Nat) (h : hexValue s = some v) :
    s ≠ [] ∧ ∀ c ∈ s, 48 ≤ c ∧ c ≤ 102 := by
  unfold hexValue numeral at h
  split at h
  · simp at h
  · rename_i hs
    refine ⟨hs, fun c hc => ?_⟩
    obtain ⟨d, hd⟩ := numeralFrom_digits _ _ s 0 v h c hc
    obtain ⟨-, -, h1, h2⟩ := hexDigit_digitVal c d hd
    exact ⟨h1, h2⟩

/-- A byte below `'0'` does not occur in a text whose bytes are all from `'0'` on. -/
theorem not_mem_of_ge (s : Str) (hi : Nat) (hs : ∀ c ∈ s, 48 ≤ c ∧ c ≤ hi) (b : Nat)
    (hb : b < 48) : b ∉ s := by
  intro hmem
  have h1 : (48 : Nat) ≤ b := (hs b hmem).1
  omega

theorem dropCR_eq (l : Str) (h : l.getLast? ≠ some 13) : dropCR l = l := by
  unfold dropCR
  rw [if_neg h]

theorem dropCR_digits (s : Str) (hi : Nat) (hs : ∀ c ∈ s, 48 ≤ c ∧ c ≤ hi) : dropCR s = s := by
  apply dropCR_eq
  intro h
  have hmem : 13 ∈ s := List.mem_of_getLast?_eq_some h
  exact not_mem_of_ge s hi hs 13 (by omega) hmem

theorem Split_no_sep (sep : Byte) (b : Str) (h : sep ∉ b) : Split sep b = [b] := by
  induction b with
  | nil => rfl
  | cons c cs ih =>
    have hc : c ≠ sep := fun e => h (by simp [e])
    have hcs : sep ∉ cs := fun e => h (by simp [e])
    simp [Split, hc, ih hcs]

theorem Split_one_sep (sep : Byte) (a b : Str) (ha : sep ∉ a) (hb : sep ∉ b) :
    Split sep (a ++ sep :: b) = [a, b] := by
  induction a with
  | nil => simp [Split, Split_no_sep sep b hb]
  | cons c cs ih =>
    have hc : c ≠ sep := fun e => ha (by simp [e])
    have hcs : sep ∉ cs := fun e => ha (by simp [e])
    simp [Split, hc, ih hcs]

theorem GoMap.set_fresh (m : GoMap) (k : Int) (v : Str) (h : k ∉ m.map Prod.fst) :
    m.set k v = m ++ [(k, v)] := by
  induction m with
  | nil => rfl
  | cons p m ih =>
    obtain ⟨k1, v1⟩ := p
    have hk : k1 ≠ k := fun e => h (by simp [e])
    have hm : k ∉ m.map Prod.fst := fun e => h (by simp [e])
    simp [GoMap.set, hk, ih hm]

theorem Scan_length (rd text rest : Str) (h : Scan rd = some (text, rest)) :
    rest.length < rd.length := by
  have hsplit := List.takeWhile_append_dropWhile (fun b => b != 10) rd
  have hlen : rd.length = (rd.takeWhile (fun b => b != 10)).length
      + (rd.dropWhile (fun b => b != 10)).length := by
    conv_lhs => rw [← hsplit]
    exact List.length_append _ _
  unfold Scan at h
  split at h
  · rename_i hd tl hdw
    dsimp only at h
    split at h
    · simp only [Option.some.injEq, Prod.mk.injEq] at h
      rw [hdw, List.length_cons, h.2] at hlen
      omega
    · simp at h
  · rename_i hdw
    dsimp only at h
    split at h
    · simp at h
    · rename_i hne
      split at h
      · simp only [Option.some.injEq, Prod.mk.injEq] at h
        have : 0 < (rd.takeWhile (fun b => b != 10)).length := List.length_pos.2 hne
        rw [← h.2]
        simp only [List.length_nil]
        omega
      · simp at h

theorem Scan_lines_ok (ls : List Str) (tail l : Str) (rest : List Str)
    (hdec : linesOf ls tail = l :: rest) (h10 : 10 ∉ l) (hlen : l.length < MaxScanTokenSize) :
    ∃ ls1 tail1, Scan (joinLines ls ++ tail) = some (dropCR l, joinLines ls1 ++ tail1) ∧
      linesOf ls1 tail1 = rest := by
  cases ls with
  | nil =>
    by_cases ht : tail = []
    · simp [linesOf, ht] at hdec
    · simp only [linesOf, ht, if_false, List.nil_append, List.cons.injEq] at hdec
      obtain ⟨rfl, rfl⟩ := hdec
      refine ⟨[], [], ?_, rfl⟩
      simp only [joinLines, List.nil_append]
      rw [Scan_last tail h10, if_neg ht, if_pos hlen]
  | cons x xs =>
    rw [linesOf_cons] at hdec
    simp only [List.cons.injEq] at hdec
    obtain ⟨rfl, hrest⟩ := hdec
    refine ⟨xs, tail, ?_, hrest⟩
    simp only [joinLines, List.append_assoc, List.cons_append]
    rw [Scan_line x _ h10, if_pos (by omega)]

theorem tokenLoop_nil (fuel : Nat) (m : GoMap) : tokenLoop fuel [] m = .ok m := by
  cases fuel <;> rfl

/-- The bound on the iterations of the mapping loop is never reached: any bound
from the length of the input on gives the same result. -/
theorem tokenLoop_fuel (f1 : Nat) :
    ∀ (f2 : Nat) (rd : Str) (m : GoMap), rd.length ≤ f1 → rd.length ≤ f2 →
      tokenLoop f1 rd m = tokenLoop f2 rd m := by
  induction f1 with
  | zero =>
    intro f2 rd m h1 _
    have hrd : rd = [] := List.length_eq_zero.1 (by omega)
    subst hrd
    rw [tokenLoop_nil, tokenLoop_nil]
  | succ f1 ih =>
    intro f2 rd m h1 h2
    cases f2 with
    | zero =>
      have hrd : rd = [] := List.length_eq_zero.1 (by omega)
      subst hrd
      rw [tokenLoop_nil, tokenLoop_nil]
    | succ f2 =>
      unfold tokenLoop
      cases hS : Scan rd with
      | none => rfl
      | some p =>
        obtain ⟨text, rest⟩ := p
        have hlt := Scan_length rd text rest hS
        simp only
        split
        · rfl
        · split
          · rfl
          · exact ih f2 rest _ (by omega) (by omega)

theorem linesOf_eq_nil (ls : List Str) (tail : Str) (h : linesOf ls tail = []) :
    joinLines ls ++ tail = [] := by
  unfold linesOf at h
  obtain ⟨h1, h2⟩ := List.append_eq_nil.1 h
  by_cases ht : tail = []
  · simp [h1, ht, joinLines]
  · simp [ht] at h2

theorem EntryOk.key {e : Str × Str} (h : EntryOk e) : decValue e.1 = some (entryKey e) := by
  obtain ⟨v, hv⟩ := Option.isSome_iff_exists.1 h.1
  simp [entryKey, hv]

theorem EntryOk.noNL {e : Str × Str} (h : EntryOk e) : 10 ∉ entryLine e := by
  obtain ⟨-, hb⟩ := decValue_bytes e.1 _ h.key
  have h1 := not_mem_of_ge e.1 57 hb 10 (by omega)
  have h2 := h.2.2.2.1
  simp [entryLine, h1, h2]

theorem tokenLoop_entries (es : List (Str × Str)) :
    ∀ (ls : List Str) (tail : Str) (m : GoMap) (fuel : Nat),
      linesOf ls tail = es.map entryLine →
      (∀ e ∈ es, EntryOk e) →
      (m.map Prod.fst ++ es.map (fun e => (entryKey e : Int))).Nodup →
      (joinLines ls ++ tail).length ≤ fuel →
      tokenLoop fuel (joinLines ls ++ tail) m
        = .ok (m ++ es.map (fun e => ((entryKey e : Int), e.2))) := by
  induction es with
  | nil =>
    intro ls tail m fuel hdec _ _ _
    rw [linesOf_eq_nil ls tail (by simpa using hdec)]
    simp [tokenLoop_nil]
  | cons e es ih =>
    intro ls tail m fuel hdec hok hnd hfuel
    have he : EntryOk e := hok e (by simp)
    have hkey := he.key
    obtain ⟨hsome, hk63, h32, h10, hcr, hlen⟩ := id he
    obtain ⟨hne, hb⟩ := decValue_bytes e.1 _ hkey
    obtain ⟨ls1, tail1, hS, hrest⟩ :=
      Scan_lines_ok ls tail (entryLine e) (es.map entryLine) (by simpa using hdec) he.noNL hlen
    have hlt := Scan_length _ _ _ hS
    obtain ⟨f, rfl⟩ : ∃ f, fuel = f + 1 := ⟨fuel - 1, by omega⟩
    have hsplit : Split 32 (entryLine e) = [e.1, e.2] :=
      Split_one_sep 32 e.1 e.2 (not_mem_of_ge e.1 57 hb 32 (by omega)) h32
    have hparse : ParseUint e.1 10 = .ok (entryKey e) := ParseUint_dec e.1 _ hkey (by omega)
    have hfresh : (entryKey e : Int) ∉ m.map Prod.fst := by
      intro hmem
      have := List.nodup_append.1 hnd
      exact this.2.2 hmem (by simp)
    unfold tokenLoop
    simp only [hS, dropCR_eq _ hcr, hsplit, List.length_cons, List.length_nil, ne_eq,
      not_true_eq_false, if_false, List.getD_cons_zero, List.getD_cons_succ, hparse,
      toInt_small _ hk63, GoMap.set_fresh m _ _ hfresh]
    rw [ih ls1 tail1 (m ++ [((entryKey e : Int), e.2)]) f hrest
      (fun x hx => hok x (by simp [hx])) ?_ (by omega)]
    · simp
    · simpa [List.map_append, List.append_assoc] using hnd

theorem VERSION2_noNL : 10 ∉ ascii "VERSION2" := by decide

theorem VERSION2_dropCR : dropCR (ascii "VERSION2") = ascii "VERSION2" := by decide

theorem VERSION2_length : (ascii "VERSION2").length < MaxScanTokenSize := by decide

theorem stTokens_entries (info : SpiderInfo) (es : List (Str × Str)) (ls : List Str)
    (tail : Str) (hdec : linesOf ls tail = es.map entryLine)
    (hes : ∀ e ∈ es, EntryOk e) (hnd : (es.map entryKey).Nodup) :
    stTokens info (joinLines ls ++ tail)
      = (some { info with TokenMap := some (es.map (fun e => ((entryKey e : Int), e.2))) },
          none) := by
  have hnd1 : (([] : GoMap).map Prod.fst ++ es.map (fun e => (entryKey e : Int))).Nodup := by
    have := List.Nodup.map (f := fun n : Nat => (n : Int)) Nat.cast_injective hnd
    simpa [List.map_map] using this
  have := tokenLoop_entries es ls tail [] _ hdec hes hnd1 (Nat.le_refl _)
  unfold stTokens
  rw [this]
  simp

/-- C6, with the bound of the scanner. A text whose lines are `VERSION2`, a line `h`
of hex digits, a decimal line `g`, a token line `t`, any mode line, decimal lines
`p1`, `p2`, `p3` and mapping lines `<k_i> <t_i>` with distinct decimal `k_i` (all
numbers below `2^63`, no line ending in a carriage return, no space in a `t_i`,
every line shorter than `MaxScanTokenSize` bytes) is decoded to the record with
`startPage` the value of `h` in base 16, `id = g`, `token = t`, the three counts,
and the map `k_i -> t_i`. The last line may lack its newline. -/
theorem NewInfoFromPlain_grammar (h g t mode p1 p2 p3 : Str) (es : List (Str × Str))
    (vh vg v1 v2 v3 : Nat) (ls : List Str) (tail : Str)
    (hdec : linesOf ls tail
      = [ascii "VERSION2", h, g, t, mode, p1, p2, p3] ++ es.map entryLine)
    (hh : hexValue h = some vh) (hg : decValue g = some vg)
    (h1 : decValue p1 = some v1) (h2 : decValue p2 = some v2) (h3 : decValue p3 = some v3)
    (hbound : vh < 2 ^ 63 ∧ vg < 2 ^ 63 ∧ v1 < 2 ^ 63 ∧ v2 < 2 ^ 63 ∧ v3 < 2 ^ 63)
    (ht : 10 ∉ t ∧ t.getLast? ≠ some 13) (hmode : 10 ∉ mode)
    (hes : ∀ e ∈ es, EntryOk e) (hnd : (es.map entryKey).Nodup)
    (hlen : ∀ l ∈ [h, g, t, mode, p1, p2, p3], l.length < MaxScanTokenSize) :
    NewInfoFromPlain (joinLines ls ++ tail) =
      (some { StartPage := (vh : Int), GID := (vg : Int), Token := t,
              PreviewPages := (v1 : Int), PreviewPerPage := (v2 : Int), Pages := (v3 : Int),
              TokenMap := some (es.map (fun e => ((entryKey e : Int), e.2))) }, none) := by
  obtain ⟨bh, bg, b1, b2, b3⟩ := hbound
  obtain ⟨-, dh⟩ := hexValue_bytes h vh hh
  obtain ⟨-, dg⟩ := decValue_bytes g vg hg
  obtain ⟨-, d1⟩ := decValue_bytes p1 v1 h1
  obtain ⟨-, d2⟩ := decValue_bytes p2 v2 h2
  obtain ⟨-, d3⟩ := decValue_bytes p3 v3 h3
  simp only [List.cons_append, List.nil_append] at hdec
  obtain ⟨lsA, tlA, sA, hdec⟩ := Scan_lines_ok ls tail _ _ hdec VERSION2_noNL VERSION2_length
  obtain ⟨lsB, tlB, sB, hdec⟩ := Scan_lines_ok lsA tlA _ _ hdec
    (not_mem_of_ge h 102 dh 10 (by omega)) (hlen h (by simp))
  obtain ⟨lsC, tlC, sC, hdec⟩ := Scan_lines_ok lsB tlB _ _ hdec
    (not_mem_of_ge g 57 dg 10 (by omega)) (hlen g (by simp))
  obtain ⟨lsD, tlD, sD, hdec⟩ := Scan_lines_ok lsC tlC _ _ hdec ht.1 (hlen t (by simp))
  obtain ⟨lsE, tlE, sE, hdec⟩ := Scan_lines_ok lsD tlD _ _ hdec hmode (hlen mode (by simp))
  obtain ⟨lsF, tlF, sF, hdec⟩ := Scan_lines_ok lsE tlE _ _ hdec
    (not_mem_of_ge p1 57 d1 10 (by omega)) (hlen p1 (by simp))
  obtain ⟨lsG, tlG, sG, hdec⟩ := Scan_lines_ok lsF tlF _ _ hdec
    (not_mem_of_ge p2 57 d2 10 (by omega)) (hlen p2 (by simp))
  obtain ⟨lsH, tlH, sH, hdec⟩ := Scan_lines_ok lsG tlG _ _ hdec
    (not_mem_of_ge p3 57 d3 10 (by omega)) (hlen p3 (by simp))
  rw [VERSION2_dropCR] at sA
  rw [dropCR_digits h 102 dh] at sB
  rw [dropCR_digits g 57 dg] at sC
  rw [dropCR_eq t ht.2] at sD
  rw [dropCR_digits p1 57 d1] at sF
  rw [dropCR_digits p2 57 d2] at sG
  rw [dropCR_digits p3 57 d3] at sH
  rw [NewInfoFromPlain_eq_stages]
  simp only [stVersion, sA, ne_eq, not_true_eq_false, if_false, stStartPage, sB,
    ParseUint_hex h vh hh (by omega), stGid, sC, ParseUint_dec g vg hg (by omega),
    stToken, sD, stMode, sE, stPreviewPages, sF, ParseUint_dec p1 v1 h1 (by omega),
    stPreviewPerPage, sG, ParseUint_dec p2 v2 h2 (by omega), stPages, sH,
    ParseUint_dec p3 v3 h3 (by omega), toInt_small _ bh, toInt_small _ bg,
    toInt_small _ b1, toInt_small _ b2, toInt_small _ b3]
  rw [stTokens_entries _ es lsH tlH hdec hes hnd]

theorem NewInfoFromPlain_grammar_witness :
    NewInfoFromPlain exampleText = (some exampleInfo, none) :=
  NewInfoFromPlain_grammar (ascii "0000002a") (ascii "12345") (ascii "abctoken") (ascii "1")
    (ascii "2") (ascii "5") (ascii "100") [(ascii "0", ascii "tok0"), (ascii "3", ascii "tok3")]
    42 12345 2 5 100
    [ascii "VERSION2", ascii "0000002a", ascii "12345", ascii "abctoken", ascii "1",
      ascii "2", ascii "5", ascii "100", ascii "0 tok0", ascii "3 tok3"] []
    (by decide) (by decide) (by decide) (by decide) (by decide) (by decide) (by decide)
    (by decide) (by decide) (by decide) (by decide) (by decide)


theorem longToken_noNL : 10 ∉ longToken := by
  intro h
  exact absurd (List.mem_replicate.1 h).2 (by decide)

theorem longToken_noCR : longToken.getLast? ≠ some 13 := by
  intro h
  exact absurd (List.mem_replicate.1 (List.mem_of_getLast?_eq_some h)).2 (by decide)

theorem longToken_length : MaxScanTokenSize ≤ longToken.length := by
  have h : longToken.length = 65536 := List.length_replicate _ _
  rw [h]
  decide

theorem Scan_line_ok (l rest : Str) (h : 10 ∉ l) (hcr : l.getLast? ≠ some 13)
    (hlen : l.length < MaxScanTokenSize) : Scan (l ++ 10 :: rest) = some (l, rest) := by
  rw [Scan_line l rest h, if_pos (by omega), dropCR_eq l hcr]

/-- A token line that fills the buffer of the scanner ends the decoding. -/
theorem token_line_too_long (tok rest : Str) (h10 : 10 ∉ tok)
    (hlen : MaxScanTokenSize ≤ tok.length) :
    NewInfoFromPlain (joinLines [ascii "VERSION2", ascii "0000002a", ascii "12345", tok] ++ rest)
      = (none, some Error.errInvalidFormat) := by
  have hp1 : ParseUint (ascii "0000002a") 16 = .ok 42 := rfl
  have hp2 : ParseUint (ascii "12345") 10 = .ok 12345 := rfl
  have hlong : ¬ (tok.length + 1 ≤ MaxScanTokenSize) := by omega
  rw [NewInfoFromPlain_eq_stages]
  simp only [joinLines, List.append_assoc, List.cons_append, List.nil_append]
  simp only [stVersion, Scan_line_ok _ _ VERSION2_noNL (by decide) VERSION2_length,
    ne_eq, not_true_eq_false, if_false, stStartPage,
    Scan_line_ok (ascii "0000002a") _ (by decide) (by decide) (by decide), hp1, stGid,
    Scan_line_ok (ascii "12345") _ (by decide) (by decide) (by decide), hp2, stToken,
    Scan_line tok _ h10, if_neg hlong]

/-- C6, as stated, fails: a text of the grammar whose token line has 65536 bytes
yields no record. -/
theorem long_line_rejected :
    (10 ∉ longToken ∧ longToken.getLast? ≠ some 13) ∧
    NewInfoFromPlain (joinLines
        ([ascii "VERSION2", ascii "0000002a", ascii "12345", longToken] ++
          [ascii "1", ascii "2", ascii "5", ascii "100", ascii "0 tok0", ascii "3 tok3"]))
      = (none, some Error.errInvalidFormat) := by
  refine ⟨⟨longToken_noNL, longToken_noCR⟩, ?_⟩
  rw [joinLines_append]
  exact token_line_too_long longToken _ longToken_noNL longToken_length

/-! ## The decoder as a function of the delivered texts -/

theorem scanAll_nil (fuel : Nat) : scanAll fuel [] = [] := by
  cases fuel <;> rfl

theorem scanAll_fuel (f1 : Nat) :
    ∀ (f2 : Nat) (rd : Str), rd.length ≤ f1 → rd.length ≤ f2 →
      scanAll f1 rd = scanAll f2 rd := by
  induction f1 with
  | zero =>
    intro f2 rd h1 _
    have hrd : rd = [] := List.length_eq_zero.1 (by omega)
    subst hrd
    rw [scanAll_nil, scanAll_nil]
  | succ f1 ih =>
    intro f2 rd h1 h2
    cases f2 with
    | zero =>
      have hrd : rd = [] := List.length_eq_zero.1 (by omega)
      subst hrd
      rw [scanAll_nil, scanAll_nil]
    | succ f2 =>
      unfold scanAll
      cases hS : Scan rd with
      | none => rfl
      | some p =>
        obtain ⟨text, rest⟩ := p
        have hlt := Scan_length rd text rest hS
        simp only
        rw [ih f2 rest (by omega) (by omega)]

theorem scanAll_some (fuel : Nat) (rd text rest : Str) (hS : Scan rd = some (text, rest))
    (hf : rd.length ≤ fuel) : scanAll fuel rd = text :: scanAll rest.length rest := by
  have hlt := Scan_length rd text rest hS
  obtain ⟨f, rfl⟩ : ∃ f, fuel = f + 1 := ⟨fuel - 1, by omega⟩
  have h1 : scanAll (f + 1) rd = text :: scanAll f rest := by simp only [scanAll, hS]
  rw [h1, scanAll_fuel f rest.length rest (by omega) (Nat.le_refl _)]

theorem scanAll_none (fuel : Nat) (rd : Str) (hS : Scan rd = none) : scanAll fuel rd = [] := by
  cases fuel with
  | zero => rfl
  | succ f => simp only [scanAll, hS]

theorem tokenLoop_eq_tokensOf (fuel : Nat) :
    ∀ (rd : Str) (m : GoMap), rd.length ≤ fuel →
      tokenLoop fuel rd m = tokensOf (scanAll fuel rd) m := by
  induction fuel with
  | zero =>
    intro rd m _
    rfl
  | succ f ih =>
    intro rd m hf
    cases hS : Scan rd with
    | none => simp only [tokenLoop, scanAll, hS, tokensOf]
    | some p =>
      obtain ⟨text, rest⟩ := p
      have hlt := Scan_length rd text rest hS
      simp only [tokenLoop, scanAll, hS, tokensOf]
      by_cases hlen : (Split 32 text).length ≠ 2
      · rw [if_pos hlen, if_pos hlen]
      · rw [if_neg hlen, if_neg hlen]
        cases hP : ParseUint ((Split 32 text).getD 0 []) 10 with
        | error e => rfl
        | ok id => exact ih rest _ (by omega)

theorem stTokens_eq_dt (info : SpiderInfo) (rd : Str) :
    stTokens info rd = dtTokens info (scanAll rd.length rd) := by
  simp only [stTokens, dtTokens, tokenLoop_eq_tokensOf rd.length rd [] (Nat.le_refl _)]
  try rfl

theorem stPages_eq_dt (info : SpiderInfo) (rd : Str) :
    stPages info rd = dtPages info (scanAll rd.length rd) := by
  cases hS : Scan rd with
  | none => simp only [stPages, hS, scanAll_none _ _ hS, dtPages]
  | some p =>
    obtain ⟨text, rest⟩ := p
    rw [scanAll_some _ _ _ _ hS (Nat.le_refl _)]
    simp only [stPages, hS, dtPages, stTokens_eq_dt]
    try rfl

theorem stPreviewPerPage_eq_dt (info : SpiderInfo) (rd : Str) :
    stPreviewPerPage info rd = dtPreviewPerPage info (scanAll rd.length rd) := by
  cases hS : Scan rd with
  | none => simp only [stPreviewPerPage, hS, scanAll_none _ _ hS, dtPreviewPerPage]
  | some p =>
    obtain ⟨text, rest⟩ := p
    rw [scanAll_some _ _ _ _ hS (Nat.le_refl _)]
    simp only [stPreviewPerPage, hS, dtPreviewPerPage, stPages_eq_dt]
    try rfl

theorem stPreviewPages_eq_dt (info : SpiderInfo) (rd : Str) :
    stPreviewPages info rd = dtPreviewPages info (scanAll rd.length rd) := by
  cases hS : Scan rd with
  | none => simp only [stPreviewPages, hS, scanAll_none _ _ hS, dtPreviewPages]
  | some p =>
    obtain ⟨text, rest⟩ := p
    rw [scanAll_some _ _ _ _ hS (Nat.le_refl _)]
    simp only [stPreviewPages, hS, dtPreviewPages, stPreviewPerPage_eq_dt]
    try rfl

theorem stMode_eq_dt (info : SpiderInfo) (rd : Str) :
    stMode info rd = dtMode info (scanAll rd.length rd) := by
  cases hS : Scan rd with
  | none => simp only [stMode, hS, scanAll_none _ _ hS, dtMode]
  | some p =>
    obtain ⟨text, rest⟩ := p
    rw [scanAll_some _ _ _ _ hS (Nat.le_refl _)]
    simp only [stMode, hS, dtMode, stPreviewPages_eq_dt]
    try rfl

theorem stToken_eq_dt (info : SpiderInfo) (rd : Str) :
    stToken info rd = dtToken info (scanAll rd.length rd) := by
  cases hS : Scan rd with
  | none => simp only [stToken, hS, scanAll_none _ _ hS, dtToken]
  | some p =>
    obtain ⟨text, rest⟩ := p
    rw [scanAll_some _ _ _ _ hS (Nat.le_refl _)]
    simp only [stToken, hS, dtToken, stMode_eq_dt]
    try rfl

theorem stGid_eq_dt (info : SpiderInfo) (rd : Str) :
    stGid info rd = dtGid info (scanAll rd.length rd) := by
  cases hS : Scan rd with
  | none => simp only [stGid, hS, scanAll_none _ _ hS, dtGid]
  | some p =>
    obtain ⟨text, rest⟩ := p
    rw [scanAll_some _ _ _ _ hS (Nat.le_refl _)]
    simp only [stGid, hS, dtGid, stToken_eq_dt]
    try rfl

theorem stStartPage_eq_dt (info : SpiderInfo) (rd : Str) :
    stStartPage info rd = dtStartPage info (scanAll rd.length rd) := by
  cases hS : Scan rd with
  | none => simp only [stStartPage, hS, scanAll_none _ _ hS, dtStartPage]
  | some p =>
    obtain ⟨text, rest⟩ := p
    rw [scanAll_some _ _ _ _ hS (Nat.le_refl _)]
    simp only [stStartPage, hS, dtStartPage, stGid_eq_dt]
    try rfl

theorem stVersion_eq_dt (rd : Str) :
    stVersion rd = dtVersion (scanAll rd.length rd) := by
  cases hS : Scan rd with
  | none => simp only [stVersion, hS, scanAll_none _ _ hS, dtVersion]
  | some p =>
    obtain ⟨text, rest⟩ := p
    rw [scanAll_some _ _ _ _ hS (Nat.le_refl _)]
    simp only [stVersion, hS, dtVersion, stStartPage_eq_dt]
    try rfl

/-- The decoder is a function of the texts that the scanner delivers. -/
theorem NewInfoFromPlain_eq_dt (data : Str) :
    NewInfoFromPlain data = dtVersion (scanAll data.length data) := by
  rw [NewInfoFromPlain_eq_stages, stVersion_eq_dt]

theorem delivered_nil_nil : delivered [] [] = [] := rfl

theorem delivered_cons (l : Str) (ls : List Str) (tail : Str) :
    delivered (l :: ls) tail =
      if l.length < MaxScanTokenSize then dropCR l :: delivered ls tail else [] := by
  unfold delivered
  rw [linesOf_cons]
  by_cases h : l.length < MaxScanTokenSize
  · simp [List.takeWhile_cons, h]
  · simp [List.takeWhile_cons, h]

/-- On a text given by its lines the scanner delivers the lines up to the first
one that does not fit its buffer. -/
theorem scanAll_lines (ls : List Str) :
    ∀ (tail : Str) (fuel : Nat), (∀ l ∈ ls, 10 ∉ l) → 10 ∉ tail →
      (joinLines ls ++ tail).length ≤ fuel →
      scanAll fuel (joinLines ls ++ tail) = delivered ls tail := by
  induction ls with
  | nil =>
    intro tail fuel _ htail hf
    simp only [joinLines, List.nil_append] at hf ⊢
    have hS := Scan_last tail htail
    by_cases ht : tail = []
    · subst ht
      rw [scanAll_nil]
      rfl
    · rw [if_neg ht] at hS
      by_cases hlen : tail.length < MaxScanTokenSize
      · rw [if_pos hlen] at hS
        rw [scanAll_some _ _ _ _ hS hf, scanAll_nil]
        simp [delivered, linesOf, ht, List.takeWhile_cons, hlen]
      · rw [if_neg hlen] at hS
        rw [scanAll_none _ _ hS]
        simp [delivered, linesOf, ht, List.takeWhile_cons, hlen]
  | cons l ls ih =>
    intro tail fuel hls htail hf
    have hl : 10 ∉ l := hls l (by simp)
    have hrest : ∀ x ∈ ls, 10 ∉ x := fun x hx => hls x (by simp [hx])
    simp only [joinLines, List.append_assoc, List.cons_append] at hf ⊢
    have hS := Scan_line l (joinLines ls ++ tail) hl
    rw [delivered_cons]
    by_cases hlen : l.length < MaxScanTokenSize
    · rw [if_pos (by omega)] at hS
      rw [scanAll_some _ _ _ _ hS hf, if_pos hlen, ih tail _ hrest htail (Nat.le_refl _)]
    · rw [if_neg (by omega)] at hS
      rw [scanAll_none _ _ hS, if_neg hlen]

/-- The decoder on a text given by its lines. -/
theorem NewInfoFromPlain_lines (ls : List Str) (tail : Str)
    (hls : ∀ l ∈ ls, 10 ∉ l) (htail : 10 ∉ tail) :
    NewInfoFromPlain (joinLines ls ++ tail) = dtVersion (delivered ls tail) := by
  rw [NewInfoFromPlain_eq_dt, scanAll_lines ls tail _ hls htail (Nat.le_refl _)]

/-! ## The lines of the output, and results that carry both a record and an error -/

theorem Split_line (sep : Byte) (a b : Str) (ha : sep ∉ a) :
    Split sep (a ++ sep :: b) = a :: Split sep b := by
  induction a with
  | nil => simp [Split]
  | cons c cs ih =>
    have hc : c ≠ sep := fun e => ha (by simp [e])
    have hcs : sep ∉ cs := fun e => ha (by simp [e])
    simp [Split, hc, ih hcs]

theorem digitByte_ge (d : Nat) : (48 : Nat) ≤ digitByte d := by
  unfold digitByte
  split
  · exact Nat.le_add_right 48 d
  · exact Nat.le_trans (by decide) (Nat.le_add_right 97 (d - 10))

theorem fmtDigits_ge (base fuel : Nat) :
    ∀ (u : Nat), ∀ c ∈ fmtDigits base fuel u, (48 : Nat) ≤ c := by
  induction fuel with
  | zero =>
    intro u c hc
    simp only [fmtDigits, List.mem_singleton] at hc
    subst hc
    exact digitByte_ge _
  | succ f ih =>
    intro u c hc
    unfold fmtDigits at hc
    split at hc
    · rcases List.mem_append.1 hc with h | h
      · exact ih _ c h
      · simp only [List.mem_singleton] at h
        subst h
        exact digitByte_ge _
    · simp only [List.mem_singleton] at hc
      subst hc
      exact digitByte_ge _

theorem fmtInteger_ge (base wid : Nat) (v : Int) :
    ∀ c ∈ fmtInteger base wid v, (45 : Nat) ≤ c := by
  intro c hc
  unfold fmtInteger at hc
  simp only at hc
  have key : ∀ k, ∀ x ∈ List.replicate k 48 ++ fmtDigits base 64 v.natAbs, (45 : Nat) ≤ x := by
    intro k x hx
    rcases List.mem_append.1 hx with h | h
    · have h2 : x = (48 : Nat) := (List.mem_replicate.1 h).2
      rw [h2]
      decide
    · exact Nat.le_trans (by decide) (fmtDigits_ge base 64 _ x h)
  split at hc
  · rcases List.mem_cons.1 hc with h | h
    · have h2 : c = (45 : Nat) := h
      rw [h2]
    · exact key _ c h
  · exact key _ c hc

theorem fmtInteger_noNL (base wid : Nat) (v : Int) : 10 ∉ fmtInteger base wid v := by
  intro h
  exact absurd (fmtInteger_ge base wid v 10 h) (by decide)

theorem fmtD_noNL (v : Int) : 10 ∉ fmtD v := fmtInteger_noNL 10 0 v

theorem fmt08x_noNL (v : Int) : 10 ∉ fmt08x v := fmtInteger_noNL 16 8 v

/-- The first five lines of the output of `ToPlainText`, for a token without
newline. -/
theorem ToPlainText_lines (R : SpiderInfo) (ht : 10 ∉ R.Token) :
    ∃ rest, Split 10 (ToPlainText R).1 =
      ascii "VERSION2" :: fmt08x R.StartPage :: fmtD R.GID :: R.Token :: [49] :: rest := by
  rw [ToPlainText_eq]
  simp only [joinLines, List.append_assoc, List.cons_append, List.nil_append]
  rw [Split_line 10 _ _ VERSION2_noNL, Split_line 10 _ _ (fmt08x_noNL _),
    Split_line 10 _ _ (fmtD_noNL _), Split_line 10 _ _ ht,
    show ∀ b : Str, (49 :: 10 :: b : Str) = [49] ++ 10 :: b from fun _ => rfl,
    Split_line 10 [49] _ (by decide)]
  exact ⟨_, rfl⟩

/-- The first two lines of the output of `ToPlainText`. -/
theorem ToPlainText_lines2 (R : SpiderInfo) :
    ∃ rest, Split 10 (ToPlainText R).1 = ascii "VERSION2" :: fmt08x R.StartPage :: rest := by
  rw [ToPlainText_eq]
  simp only [joinLines, List.append_assoc, List.cons_append, List.nil_append]
  rw [Split_line 10 _ _ VERSION2_noNL, Split_line 10 _ _ (fmt08x_noNL _)]
  exact ⟨_, rfl⟩

/-- C16, for a token without newline. The fifth line of the output of
`ToPlainText`, the line after the token line, is the single character `1`. -/
theorem mode_line_constant (R : SpiderInfo) (ht : 10 ∉ R.Token) :
    lineAt 4 (ToPlainText R).1 = [49] := by
  obtain ⟨rest, h⟩ := ToPlainText_lines R ht
  unfold lineAt
  rw [h]
  rfl

theorem mode_line_constant_witness :
    10 ∉ exampleInfo.Token ∧ lineAt 4 (ToPlainText exampleInfo).1 = ascii "1" :=
  ⟨by decide, mode_line_constant exampleInfo (by decide)⟩

/-- C16, as stated, fails: for a record whose token is `a`, newline, `b`, the fifth
line of the output is `b`, and the `1` comes on the sixth. -/
theorem mode_line_after_newline_token :
    lineAt 4 (ToPlainText newlineTokenInfo).1 = ascii "b" ∧
    lineAt 5 (ToPlainText newlineTokenInfo).1 = ascii "1" := by
  decide

/-- C13, at the failing inputs. Whenever `UnmarshalFirst` reports an error,
`NewInfoFromCbor` returns that error together with a non-nil record, the record
as `UnmarshalFirst` left it; so does `NewInfo` on an input whose first byte has
the top three bits `101`. -/
theorem NewInfoFromCbor_record_with_error (U : Unmarshaler) (data : Str) (e : Error)
    (h : (U data SpiderInfo.zero).2 = some e) :
    NewInfoFromCbor U data = (some (U data SpiderInfo.zero).1, some e) ∧
    (∀ c, data.head? = some c → c ≠ 86 → c &&& 0xE0 = 0xA0 →
      NewInfo U (readerOf data) = (some (U data SpiderInfo.zero).1, some e)) := by
  have h1 : NewInfoFromCbor U data = (some (U data SpiderInfo.zero).1, some e) := by
    simp only [NewInfoFromCbor, h]
  refine ⟨h1, ?_⟩
  intro c hc hV hM
  cases data with
  | nil => simp at hc
  | cons x rest =>
    simp only [List.head?_cons, Option.some.injEq] at hc
    subst hc
    rw [NewInfo_cons, if_neg hV, if_pos hM, h1]

theorem NewInfoFromCbor_record_with_error_witness :
    NewInfoFromCbor rejectAll [0xA7] = (some SpiderInfo.zero, some (Error.cborError 0)) ∧
    NewInfo rejectAll (readerOf [0xA7]) = (some SpiderInfo.zero, some (Error.cborError 0)) :=
  ⟨(NewInfoFromCbor_record_with_error rejectAll [0xA7] (Error.cborError 0) rfl).1,
   (NewInfoFromCbor_record_with_error rejectAll [0xA7] (Error.cborError 0) rfl).2 0xA7 rfl
     (by decide) (by decide)⟩

/-- C14, at the failing input. The id `18446744073709551615` and the index
`9223372036854775808` are accepted and come back as `-1` and as
`-9223372036854775808`. -/
theorem wrapped_values :
    NewInfoFromPlain wrapText =
      (some { SpiderInfo.zero with
                GID := -1, TokenMap := some [(-9223372036854775808, ascii "tok")] }, none) := by
  decide

/-! ## What fmt writes, read back -/

theorem numeralFrom_append (dg : Byte → Option Nat) (b : Nat) (xs ys : Str) :
    ∀ n, numeralFrom dg b (xs ++ ys) n
      = (numeralFrom dg b xs n).bind (fun m => numeralFrom dg b ys m) := by
  induction xs with
  | nil => intro n; rfl
  | cons c cs ih =>
    intro n
    simp only [List.cons_append, numeralFrom]
    cases dg c with
    | none => rfl
    | some d => exact ih _

theorem hexDigit_digitByte (d : Nat) (h : d < 16) : hexDigit (digitByte d) = some d := by
  interval_cases d <;> rfl

theorem decDigit_digitByte (d : Nat) (h : d < 10) : decDigit (digitByte d) = some d := by
  interval_cases d <;> rfl

theorem fmtDigits_ne_nil (b fuel u : Nat) : fmtDigits b fuel u ≠ [] := by
  cases fuel with
  | zero => simp [fmtDigits]
  | succ f =>
    unfold fmtDigits
    split <;> simp

/-- Reading back the digits that `fmt` writes gives the number written. -/
theorem fmtDigits_value (dg : Byte → Option Nat) (b : Nat) (hb : 0 < b)
    (hdg : ∀ d, d < b → dg (digitByte d) = some d) (fuel : Nat) :
    ∀ u, u < b ^ (fuel + 1) → numeralFrom dg b (fmtDigits b fuel u) 0 = some u := by
  induction fuel with
  | zero =>
    intro u hu
    have hu1 : u < b := by simpa using hu
    simp only [fmtDigits, Nat.mod_eq_of_lt hu1, numeralFrom, hdg u hu1]
    simp
  | succ f ih =>
    intro u hu
    unfold fmtDigits
    by_cases hbu : b ≤ u
    · rw [if_pos hbu, numeralFrom_append]
      have hdiv : u / b < b ^ (f + 1) := by
        apply Nat.div_lt_of_lt_mul
        rw [Nat.mul_comm, ← Nat.pow_succ]
        exact hu
      rw [ih _ hdiv]
      simp only [Option.some_bind, numeralFrom, hdg _ (Nat.mod_lt u hb)]
      congr 1
      exact Nat.div_add_mod' u b
    · rw [if_neg hbu]
      have hu1 : u < b := by omega
      simp only [numeralFrom, hdg u hu1]
      simp

theorem numeralFrom_zeros (dg : Byte → Option Nat) (b : Nat) (h0 : dg 48 = some 0) (s : Str) :
    ∀ k, numeralFrom dg b (List.replicate k 48 ++ s) 0 = numeralFrom dg b s 0 := by
  intro k
  induction k with
  | zero => rfl
  | succ k ih =>
    simp only [List.replicate_succ, List.cons_append, numeralFrom, h0]
    simpa using ih

theorem fmtDigits_length_le (b : Nat) (_ : 2 ≤ b) (fuel : Nat) :
    ∀ u k, 1 ≤ k → u < b ^ k → (fmtDigits b fuel u).length ≤ k := by
  induction fuel with
  | zero =>
    intro u k hk _
    simpa [fmtDigits] using hk
  | succ f ih =>
    intro u k hk hu
    unfold fmtDigits
    by_cases hbu : b ≤ u
    · rw [if_pos hbu]
      obtain ⟨k1, rfl⟩ : ∃ k1, k = k1 + 1 := ⟨k - 1, by omega⟩
      have hk1 : 1 ≤ k1 := by
        rcases Nat.eq_zero_or_pos k1 with h0 | h0
        · subst h0
          simp at hu
          omega
        · exact h0
      have hdiv : u / b < b ^ k1 := by
        apply Nat.div_lt_of_lt_mul
        rw [Nat.mul_comm, ← Nat.pow_succ]
        exact hu
      have := ih _ k1 hk1 hdiv
      simp only [List.length_append, List.length_singleton]
      omega
    · rw [if_neg hbu]
      simpa using hk

theorem pow_le_lt_base (b k u : Nat) (hb : 2 ≤ b) (h1 : b ^ k ≤ u) (h2 : u < b) : k = 0 := by
  rcases Nat.eq_zero_or_pos k with h0 | h0
  · exact h0
  · have : b ^ 1 ≤ b ^ k := Nat.pow_le_pow_right (by omega) h0
    simp at this
    omega

theorem fmtDigits_length_gt (b : Nat) (hb : 2 ≤ b) (fuel : Nat) :
    ∀ u k, b ^ k ≤ u → u < b ^ (fuel + 1) → k < (fmtDigits b fuel u).length := by
  induction fuel with
  | zero =>
    intro u k h1 h2
    have h3 : u < b := by simpa using h2
    have := pow_le_lt_base b k u hb h1 h3
    subst this
    simp [fmtDigits]
  | succ f ih =>
    intro u k h1 h2
    unfold fmtDigits
    by_cases hbu : b ≤ u
    · rw [if_pos hbu]
      simp only [List.length_append, List.length_singleton]
      rcases Nat.eq_zero_or_pos k with h0 | h0
      · omega
      · obtain ⟨k1, rfl⟩ : ∃ k1, k = k1 + 1 := ⟨k - 1, by omega⟩
        have hdiv : u / b < b ^ (f + 1) := by
          apply Nat.div_lt_of_lt_mul
          rw [Nat.mul_comm, ← Nat.pow_succ]
          exact h2
        have hle : b ^ k1 ≤ u / b := by
          rw [Nat.le_div_iff_mul_le (by omega)]
          rw [← Nat.pow_succ]
          exact h1
        have := ih _ k1 hle hdiv
        omega
    · rw [if_neg hbu]
      have := pow_le_lt_base b k u hb h1 (by omega)
      subst this
      simp

theorem digitByte_ne_zero (d : Nat) (hd : 0 < d) : digitByte d ≠ 48 := by
  unfold digitByte
  intro h
  split at h
  · have h1 : (48 : Nat) + d = 48 := h
    omega
  · have h1 : (97 : Nat) + (d - 10) = 48 := h
    omega

theorem fmtDigits_head (b : Nat) (hb : 2 ≤ b) (fuel : Nat) :
    ∀ u, 0 < u → u < b ^ (fuel + 1) → (fmtDigits b fuel u).head? ≠ some 48 := by
  induction fuel with
  | zero =>
    intro u h0 hu
    have hu1 : u < b := by simpa using hu
    simp only [fmtDigits, Nat.mod_eq_of_lt hu1, List.head?_cons, ne_eq, Option.some.injEq]
    exact digitByte_ne_zero u h0
  | succ f ih =>
    intro u h0 hu
    unfold fmtDigits
    by_cases hbu : b ≤ u
    · rw [if_pos hbu, List.head?_append_of_ne_nil _ (fmtDigits_ne_nil _ _ _)]
      have hdiv : u / b < b ^ (f + 1) := by
        apply Nat.div_lt_of_lt_mul
        rw [Nat.mul_comm, ← Nat.pow_succ]
        exact hu
      exact ih _ (Nat.div_pos hbu (by omega)) hdiv
    · rw [if_neg hbu]
      simp only [List.head?_cons, ne_eq, Option.some.injEq]
      exact digitByte_ne_zero u h0

theorem fmtDigits_mem (b : Nat) (hb : 0 < b) (fuel : Nat) :
    ∀ u, ∀ c ∈ fmtDigits b fuel u, ∃ d, d < b ∧ c = digitByte d := by
  induction fuel with
  | zero =>
    intro u c hc
    simp only [fmtDigits, List.mem_singleton] at hc
    exact ⟨u % b, Nat.mod_lt u hb, hc⟩
  | succ f ih =>
    intro u c hc
    unfold fmtDigits at hc
    split at hc
    · rcases List.mem_append.1 hc with h | h
      · exact ih _ c h
      · simp only [List.mem_singleton] at h
        exact ⟨u % b, Nat.mod_lt u hb, h⟩
    · rename_i hbu
      simp only [List.mem_singleton] at hc
      exact ⟨u, by omega, hc⟩

theorem isLowerHex_digitByte (d : Nat) (h : d < 16) : isLowerHex (digitByte d) = true := by
  interval_cases d <;> rfl

theorem fmtD_nat (n : Nat) : fmtD (n : Int) = fmtDigits 10 64 n := by
  simp [fmtD, fmtInteger]

theorem fmt08x_nat (n : Nat) :
    fmt08x (n : Int)
      = List.replicate (8 - (fmtDigits 16 64 n).length) 48 ++ fmtDigits 16 64 n := by
  have h : ¬ ((n : Int) < 0) := by omega
  simp [fmt08x, fmtInteger, h]

theorem lt_pow_fuel16 (n : Nat) (h : n < 2 ^ 63) : n < 16 ^ (64 + 1) := by
  have : (2 : Nat) ^ 63 ≤ 16 ^ (64 + 1) := by decide
  omega

theorem lt_pow_fuel10 (n : Nat) (h : n < 2 ^ 63) : n < 10 ^ (64 + 1) := by
  have : (2 : Nat) ^ 63 ≤ 10 ^ (64 + 1) := by decide
  omega

theorem hexValue_fmt08x (n : Nat) (h : n < 2 ^ 63) : hexValue (fmt08x (n : Int)) = some n := by
  rw [fmt08x_nat]
  unfold hexValue numeral
  rw [if_neg (by simp [fmtDigits_ne_nil]), numeralFrom_zeros hexDigit 16 rfl]
  exact fmtDigits_value hexDigit 16 (by decide) hexDigit_digitByte 64 n (lt_pow_fuel16 n h)

theorem decValue_fmtD (n : Nat) (h : n < 2 ^ 63) : decValue (fmtD (n : Int)) = some n := by
  rw [fmtD_nat]
  unfold decValue numeral
  rw [if_neg (fmtDigits_ne_nil _ _ _)]
  exact fmtDigits_value decDigit 10 (by decide) decDigit_digitByte 64 n (lt_pow_fuel10 n h)

/-- C15. For a record with non-negative `StartPage` (a Go `int`, so below `2^63`)
the second line of the output of `ToPlainText` is `fmt08x` of it: lowercase
hexadecimal digits only (so no `0x`), of length 8 when `StartPage < 16^8` and
longer with no leading zero otherwise, and it denotes `StartPage` in base 16:
`ParseUint` in base 16 gives `StartPage` back. -/
theorem startPage_hex_line (R : SpiderInfo) (n : Nat) (hR : R.StartPage = (n : Int))
    (hn : n < 2 ^ 63) :
    (∀ c ∈ lineAt 1 (ToPlainText R).1, isLowerHex c = true) ∧
    (n < 16 ^ 8 → (lineAt 1 (ToPlainText R).1).length = 8) ∧
    (16 ^ 8 ≤ n → 8 < (lineAt 1 (ToPlainText R).1).length ∧
      (lineAt 1 (ToPlainText R).1).head? ≠ some 48) ∧
    hexValue (lineAt 1 (ToPlainText R).1) = some n ∧
    ParseUint (lineAt 1 (ToPlainText R).1) 16 = .ok n := by
  obtain ⟨rest, hsplit⟩ := ToPlainText_lines2 R
  have hline : lineAt 1 (ToPlainText R).1 = fmt08x (n : Int) := by
    unfold lineAt
    rw [hsplit, hR]
    rfl
  rw [hline]
  have hval := hexValue_fmt08x n hn
  refine ⟨?_, ?_, ?_, hval, ParseUint_hex _ n hval (by omega)⟩
  · intro c hc
    rw [fmt08x_nat] at hc
    rcases List.mem_append.1 hc with h | h
    · have h2 : c = (48 : Nat) := (List.mem_replicate.1 h).2
      rw [h2]
      rfl
    · obtain ⟨d, hd, rfl⟩ := fmtDigits_mem 16 (by decide) 64 n c h
      exact isLowerHex_digitByte d hd
  · intro hlt
    have := fmtDigits_length_le 16 (by decide) 64 n 8 (by decide) hlt
    rw [fmt08x_nat, List.length_append, List.length_replicate]
    omega
  · intro hge
    have hgt := fmtDigits_length_gt 16 (by decide) 64 n 8 hge (lt_pow_fuel16 n hn)
    have hpos : 0 < n := Nat.lt_of_lt_of_le (by decide) hge
    have hhead := fmtDigits_head 16 (by decide) 64 n hpos (lt_pow_fuel16 n hn)
    have hz : 8 - (fmtDigits 16 64 n).length = 0 := by omega
    rw [fmt08x_nat, hz]
    simp only [List.replicate_zero, List.nil_append]
    exact ⟨hgt, hhead⟩

theorem startPage_hex_line_witness :
    lineAt 1 (ToPlainText exampleInfo).1 = ascii "0000002a" ∧
    ParseUint (lineAt 1 (ToPlainText exampleInfo).1) 16 = .ok 42 :=
  ⟨by decide, (startPage_hex_line exampleInfo 42 rfl (by decide)).2.2.2.2⟩

/-! ## What ParseUint accepts, and the steps of the decoder -/

theorem le_lower (c : Nat) : c ≤ lower c := by
  unfold lower
  apply Nat.le_of_testBit
  intro i hi
  rw [Nat.testBit_or, hi]
  rfl

theorem digitVal_decDigit (c d : Nat) (h : digitVal c = some d) (hd : d < 10) :
    decDigit c = some d := by
  unfold digitVal at h
  unfold decDigit
  split at h
  · rename_i hc
    rw [if_pos hc]
    exact h
  · split at h
    · simp only [Option.some.injEq] at h
      omega
    · simp at h

theorem digitVal_hexDigit (c d : Nat) (h : digitVal c = some d) (hd : d < 16) :
    hexDigit c = some d := by
  by_cases hc : c ≤ 102
  · have key : ∀ c : Fin 103, ∀ d : Fin 16,
        digitVal c.val = some d.val → hexDigit c.val = some d.val := by decide
    exact key ⟨c, by omega⟩ ⟨d, hd⟩ h
  · exfalso
    have hl := le_lower c
    unfold digitVal at h
    split at h
    · rename_i h1
      have h2 : c ≤ (57 : Nat) := h1.2
      omega
    · split at h
      · rename_i h1
        have h2 : lower c ≤ (122 : Nat) := h1.2
        simp only [Option.some.injEq] at h
        omega
      · simp at h

/-- What `ParseUint` accepts in base 10 is a decimal numeral below `2^64`. -/
theorem parseLoop_dec_inv (s0 s : Str) :
    ∀ n v, parseLoop s0 10 s n = .ok v → n < 2 ^ 64 →
      numeralFrom decDigit 10 s n = some v ∧ v < 2 ^ 64 := by
  induction s with
  | nil =>
    intro n v h hn
    simp only [parseLoop, Except.ok.injEq] at h
    subst h
    exact ⟨rfl, hn⟩
  | cons c cs ih =>
    intro n v h hn
    unfold parseLoop at h
    split at h
    · simp at h
    · rename_i d hd
      simp only [maxUint64] at h
      split at h
      · simp at h
      · rename_i hbase
        split at h
        · simp at h
        · rename_i hcut
          split at h
          · simp at h
          · rename_i hov
            have hd10 : d < 10 := by omega
            have e1 : n * 10 % 2 ^ 64 = n * 10 := Nat.mod_eq_of_lt (by omega)
            rw [e1] at hov h
            have e2 : (n * 10 + d) % 2 ^ 64 = n * 10 + d := by
              apply Nat.mod_eq_of_lt
              by_contra hge
              have : (n * 10 + d) % 2 ^ 64 = n * 10 + d - 2 ^ 64 := by omega
              omega
            rw [e2] at h
            have := ih _ v h (by omega)
            unfold numeralFrom
            rw [digitVal_decDigit c d hd hd10]
            exact this

/-- What `ParseUint` accepts in base 16 is a hexadecimal numeral below `2^64`. -/
theorem parseLoop_hex_inv (s0 s : Str) :
    ∀ n v, parseLoop s0 16 s n = .ok v → n < 2 ^ 64 →
      numeralFrom hexDigit 16 s n = some v ∧ v < 2 ^ 64 := by
  induction s with
  | nil =>
    intro n v h hn
    simp only [parseLoop, Except.ok.injEq] at h
    subst h
    exact ⟨rfl, hn⟩
  | cons c cs ih =>
    intro n v h hn
    unfold parseLoop at h
    split at h
    · simp at h
    · rename_i d hd
      simp only [maxUint64] at h
      split at h
      · simp at h
      · rename_i hbase
        split at h
        · simp at h
        · rename_i hcut
          split at h
          · simp at h
          · rename_i hov
            have hd16 : d < 16 := by omega
            have e1 : n * 16 % 2 ^ 64 = n * 16 := Nat.mod_eq_of_lt (by omega)
            rw [e1] at hov h
            have e2 : (n * 16 + d) % 2 ^ 64 = n * 16 + d := by
              apply Nat.mod_eq_of_lt
              by_contra hge
              have : (n * 16 + d) % 2 ^ 64 = n * 16 + d - 2 ^ 64 := by omega
              omega
            rw [e2] at h
            have := ih _ v h (by omega)
            unfold numeralFrom
            rw [digitVal_hexDigit c d hd hd16]
            exact this

theorem ParseUint_dec_inv (s : Str) (v : Nat) (h : ParseUint s 10 = .ok v) :
    decValue s = some v ∧ v < 2 ^ 64 := by
  unfold ParseUint at h
  split at h
  · simp at h
  · rename_i hs
    unfold decValue numeral
    rw [if_neg hs]
    exact parseLoop_dec_inv s s 0 v h (by decide)

theorem ParseUint_hex_inv (s : Str) (v : Nat) (h : ParseUint s 16 = .ok v) :
    hexValue s = some v ∧ v < 2 ^ 64 := by
  unfold ParseUint at h
  split at h
  · simp at h
  · rename_i hs
    unfold hexValue numeral
    rw [if_neg hs]
    exact parseLoop_hex_inv s s 0 v h (by decide)

/-- Every error of `ParseUint` is a `NumError` that carries the text. -/
theorem parseLoop_error (s0 : Str) (base : Nat) (s : Str) :
    ∀ n e, parseLoop s0 base s n = .error e → ∃ kind, e = Error.NumError s0 kind := by
  induction s with
  | nil => intro n e h; simp [parseLoop] at h
  | cons c cs ih =>
    intro n e h
    unfold parseLoop at h
    split at h
    · simp only [Except.error.injEq] at h
      exact ⟨_, h.symm⟩
    · split at h
      · simp only [Except.error.injEq] at h
        exact ⟨_, h.symm⟩
      · split at h
        · simp only [Except.error.injEq] at h
          exact ⟨_, h.symm⟩
        · simp only at h
          split at h
          · simp only [Except.error.injEq] at h
            exact ⟨_, h.symm⟩
          · exact ih _ e h

theorem ParseUint_error (s : Str) (base : Nat) (e : Error) (h : ParseUint s base = .error e) :
    ∃ kind, e = Error.NumError s kind := by
  unfold ParseUint at h
  split at h
  · simp only [Except.error.injEq] at h
    exact ⟨_, h.symm⟩
  · exact parseLoop_error s base s 0 e h


theorem ParseUint_bad_dec (s : Str) (h : badNumber (decValue s) = true) :
    ∃ kind, ParseUint s 10 = .error (Error.NumError s kind) := by
  cases hP : ParseUint s 10 with
  | error e =>
    obtain ⟨kind, rfl⟩ := ParseUint_error s 10 e hP
    exact ⟨kind, rfl⟩
  | ok v =>
    obtain ⟨h1, h2⟩ := ParseUint_dec_inv s v hP
    rw [h1] at h
    simp only [badNumber, decide_eq_true_eq] at h
    omega

theorem ParseUint_bad_hex (s : Str) (h : badNumber (hexValue s) = true) :
    ∃ kind, ParseUint s 16 = .error (Error.NumError s kind) := by
  cases hP : ParseUint s 16 with
  | error e =>
    obtain ⟨kind, rfl⟩ := ParseUint_error s 16 e hP
    exact ⟨kind, rfl⟩
  | ok v =>
    obtain ⟨h1, h2⟩ := ParseUint_hex_inv s v hP
    rw [h1] at h
    simp only [badNumber, decide_eq_true_eq] at h
    omega

theorem ParseUint_validIndex (s : Str) (h : validIndex s = true) :
    ∃ v, ParseUint s 10 = .ok v := by
  unfold validIndex at h
  split at h
  · rename_i v hv
    exact ⟨v, ParseUint_dec s v hv (by simpa using h)⟩
  · simp at h

theorem Split_length (sep : Byte) (s : Str) : (Split sep s).length = s.count sep + 1 := by
  induction s with
  | nil => rfl
  | cons c cs ih =>
    unfold Split
    by_cases hc : c = sep
    · subst hc
      simp [ih]
    · rw [if_neg hc]
      have hcnt : (c :: cs).count sep = cs.count sep := by
        rw [List.count_cons]
        simp [hc]
      rw [hcnt, ← ih]
      cases hS : Split sep cs with
      | nil => rw [hS] at ih; simp at ih
      | cons p ps => simp

theorem not_mem_of_count_zero (sep : Byte) (s : Str) (h : s.count sep = 0) : sep ∉ s :=
  List.count_eq_zero.1 h

theorem Split_count_one (s : Str) (h : s.count 32 = 1) :
    Split 32 s = [mapIndex s, mapToken s] := by
  induction s with
  | nil => simp at h
  | cons c cs ih =>
    by_cases hc : c = 32
    · subst hc
      have hcs : cs.count 32 = 0 := by
        rw [List.count_cons_self] at h
        omega
      simp [Split, Split_no_sep 32 cs (not_mem_of_count_zero 32 cs hcs), mapIndex, mapToken,
        List.takeWhile_cons, List.dropWhile_cons]
    · have hcs : cs.count 32 = 1 := by
        rw [List.count_cons] at h
        simpa [hc] using h
      have hb : (c != 32) = true := by simpa using hc
      simp [Split, hc, ih hcs, mapIndex, mapToken, List.takeWhile_cons, List.dropWhile_cons, hb]

theorem count_dropCR (l : Str) : (dropCR l).count 32 = l.count 32 := by
  unfold dropCR
  split
  · rename_i h
    have := List.dropLast_append_getLast? 13 h
    conv_rhs => rw [← this]
    simp
  · rfl

theorem delivered_append (pre X : List Str)
    (hpre : ∀ x ∈ pre, x.length < MaxScanTokenSize) :
    ((pre ++ X).takeWhile (fun l => decide (l.length < MaxScanTokenSize))).map dropCR
      = pre.map dropCR
        ++ (X.takeWhile (fun l => decide (l.length < MaxScanTokenSize))).map dropCR := by
  rw [List.takeWhile_append_of_pos (by simpa using hpre), List.map_append]

theorem length_dropCR_le (l : Str) : (dropCR l).length ≤ l.length := by
  unfold dropCR
  split
  · simp
  · exact Nat.le_refl _

/-! ### Steps of the decoder on well-formed and on ill-formed texts -/

theorem dtVersion_ok (a : Str) (W : List Str) (h : headerLineOk 0 a = true) :
    dtVersion (a :: W) = dtStartPage SpiderInfo.zero W := by
  have ha : a = ascii "VERSION2" := of_decide_eq_true h
  simp [dtVersion, ha]

theorem dtStartPage_step (info : SpiderInfo) (a : Str) (v : Nat) (W : List Str)
    (hv : ParseUint a 16 = .ok v) :
    dtStartPage info (a :: W) = dtGid { info with StartPage := toInt v } W := by
  simp only [dtStartPage, hv]

theorem dtStartPage_ok (info : SpiderInfo) (a : Str) (h : headerLineOk 1 a = true) :
    ∃ info1, ∀ W, dtStartPage info (a :: W) = dtGid info1 W := by
  obtain ⟨v, hv⟩ := parses_ok _ h
  exact ⟨_, fun W => dtStartPage_step info a v W hv⟩

theorem dtStartPage_bad (info : SpiderInfo) (t : Str) (Z : List Str)
    (h : ∃ kind, ParseUint t 16 = .error (Error.NumError t kind)) :
    ∃ kind, dtStartPage info (t :: Z) = (none, some (Error.NumError t kind)) := by
  obtain ⟨kind, hk⟩ := h
  exact ⟨kind, by simp only [dtStartPage, hk]⟩

theorem dtGid_step (info : SpiderInfo) (a : Str) (v : Nat) (W : List Str)
    (hv : ParseUint a 10 = .ok v) :
    dtGid info (a :: W) = dtToken { info with GID := toInt v } W := by
  simp only [dtGid, hv]

theorem dtGid_ok (info : SpiderInfo) (a : Str) (h : headerLineOk 2 a = true) :
    ∃ info1, ∀ W, dtGid info (a :: W) = dtToken info1 W := by
  obtain ⟨v, hv⟩ := parses_ok _ h
  exact ⟨_, fun W => dtGid_step info a v W hv⟩

theorem dtGid_bad (info : SpiderInfo) (t : Str) (Z : List Str)
    (h : ∃ kind, ParseUint t 10 = .error (Error.NumError t kind)) :
    ∃ kind, dtGid info (t :: Z) = (none, some (Error.NumError t kind)) := by
  obtain ⟨kind, hk⟩ := h
  exact ⟨kind, by simp only [dtGid, hk]⟩

theorem dtToken_ok (info : SpiderInfo) (a : Str) :
    ∃ info1, ∀ W, dtToken info (a :: W) = dtMode info1 W :=
  ⟨_, fun _ => rfl⟩

theorem dtMode_ok (info : SpiderInfo) (a : Str) (W : List Str) :
    dtMode info (a :: W) = dtPreviewPages info W := rfl

theorem dtPreviewPages_step (info : SpiderInfo) (a : Str) (v : Nat) (W : List Str)
    (hv : ParseUint a 10 = .ok v) :
    dtPreviewPages info (a :: W) = dtPreviewPerPage { info with PreviewPages := toInt v } W := by
  simp only [dtPreviewPages, hv]

theorem dtPreviewPages_ok (info : SpiderInfo) (a : Str) (h : headerLineOk 5 a = true) :
    ∃ info1, ∀ W, dtPreviewPages info (a :: W) = dtPreviewPerPage info1 W := by
  obtain ⟨v, hv⟩ := parses_ok _ h
  exact ⟨_, fun W => dtPreviewPages_step info a v W hv⟩

theorem dtPreviewPages_bad (info : SpiderInfo) (t : Str) (Z : List Str)
    (h : ∃ kind, ParseUint t 10 = .error (Error.NumError t kind)) :
    ∃ kind, dtPreviewPages info (t :: Z) = (none, some (Error.NumError t kind)) := by
  obtain ⟨kind, hk⟩ := h
  exact ⟨kind, by simp only [dtPreviewPages, hk]⟩

theorem dtPreviewPerPage_step (info : SpiderInfo) (a : Str) (v : Nat) (W : List Str)
    (hv : ParseUint a 10 = .ok v) :
    dtPreviewPerPage info (a :: W) = dtPages { info with PreviewPerPage := toInt v } W := by
  simp only [dtPreviewPerPage, hv]

theorem dtPreviewPerPage_ok (info : SpiderInfo) (a : Str) (h : headerLineOk 6 a = true) :
    ∃ info1, ∀ W, dtPreviewPerPage info (a :: W) = dtPages info1 W := by
  obtain ⟨v, hv⟩ := parses_ok _ h
  exact ⟨_, fun W => dtPreviewPerPage_step info a v W hv⟩

theorem dtPreviewPerPage_bad (info : SpiderInfo) (t : Str) (Z : List Str)
    (h : ∃ kind, ParseUint t 10 = .error (Error.NumError t kind)) :
    ∃ kind, dtPreviewPerPage info (t :: Z) = (none, some (Error.NumError t kind)) := by
  obtain ⟨kind, hk⟩ := h
  exact ⟨kind, by simp only [dtPreviewPerPage, hk]⟩

theorem dtPages_step (info : SpiderInfo) (a : Str) (v : Nat) (W : List Str)
    (hv : ParseUint a 10 = .ok v) :
    dtPages info (a :: W) = dtTokens { info with Pages := toInt v } W := by
  simp only [dtPages, hv]

theorem dtPages_ok (info : SpiderInfo) (a : Str) (h : headerLineOk 7 a = true) :
    ∃ info1, ∀ W, dtPages info (a :: W) = dtTokens info1 W := by
  obtain ⟨v, hv⟩ := parses_ok _ h
  exact ⟨_, fun W => dtPages_step info a v W hv⟩

theorem dtPages_bad (info : SpiderInfo) (t : Str) (Z : List Str)
    (h : ∃ kind, ParseUint t 10 = .error (Error.NumError t kind)) :
    ∃ kind, dtPages info (t :: Z) = (none, some (Error.NumError t kind)) := by
  obtain ⟨kind, hk⟩ := h
  exact ⟨kind, by simp only [dtPages, hk]⟩

/-- Eight well-formed header texts take the decoder to the mapping loop. -/
theorem dt_header_ok (a0 a1 a2 a3 a4 a5 a6 a7 : Str)
    (h0 : headerLineOk 0 a0 = true) (h1 : headerLineOk 1 a1 = true)
    (h2 : headerLineOk 2 a2 = true) (h5 : headerLineOk 5 a5 = true)
    (h6 : headerLineOk 6 a6 = true) (h7 : headerLineOk 7 a7 = true) :
    ∃ info, ∀ W,
      dtVersion (a0 :: a1 :: a2 :: a3 :: a4 :: a5 :: a6 :: a7 :: W) = dtTokens info W := by
  obtain ⟨i1, e1⟩ := dtStartPage_ok SpiderInfo.zero a1 h1
  obtain ⟨i2, e2⟩ := dtGid_ok i1 a2 h2
  obtain ⟨i3, e3⟩ := dtToken_ok i2 a3
  obtain ⟨i5, e5⟩ := dtPreviewPages_ok i3 a5 h5
  obtain ⟨i6, e6⟩ := dtPreviewPerPage_ok i5 a6 h6
  obtain ⟨i7, e7⟩ := dtPages_ok i6 a7 h7
  exact ⟨i7, fun W => by rw [dtVersion_ok a0 _ h0, e1, e2, e3, dtMode_ok, e5, e6, e7]⟩

theorem tokensOf_ok_step (t : Str) (m : GoMap) (h : mapLineOk t = true) :
    ∃ m1, ∀ W, tokensOf (t :: W) m = tokensOf W m1 := by
  simp only [mapLineOk, Bool.and_eq_true, decide_eq_true_eq] at h
  obtain ⟨hc, hv⟩ := h
  obtain ⟨v, hp⟩ := ParseUint_validIndex _ hv
  refine ⟨m.set (toInt v) (mapToken t), fun W => ?_⟩
  simp [tokensOf, Split_count_one t hc, hp]

theorem tokensOf_ok_prefix (M : List Str) :
    ∀ m : GoMap, (∀ t ∈ M, mapLineOk t = true) →
      ∃ m1, ∀ W, tokensOf (M ++ W) m = tokensOf W m1 := by
  induction M with
  | nil => intro m _; exact ⟨m, fun _ => rfl⟩
  | cons t M ih =>
    intro m h
    obtain ⟨m1, e1⟩ := tokensOf_ok_step t m (h t (by simp))
    obtain ⟨m2, e2⟩ := ih m1 (fun x hx => h x (by simp [hx]))
    exact ⟨m2, fun W => by rw [List.cons_append, e1, e2]⟩

theorem tokensOf_all_ok (M : List Str) (m : GoMap) (h : ∀ t ∈ M, mapLineOk t = true) :
    ∃ m1, tokensOf M m = .ok m1 := by
  obtain ⟨m1, e⟩ := tokensOf_ok_prefix M m h
  refine ⟨m1, ?_⟩
  have := e []
  simpa [tokensOf] using this

theorem tokensOf_bad_index (t : Str) (Z : List Str) (m : GoMap) (hc : t.count 32 = 1)
    (hbad : badNumber (decValue (mapIndex t)) = true) :
    ∃ kind, tokensOf (t :: Z) m = .error (Error.NumError (mapIndex t) kind) := by
  obtain ⟨kind, hk⟩ := ParseUint_bad_dec _ hbad
  exact ⟨kind, by simp [tokensOf, Split_count_one t hc, hk]⟩

theorem tokensOf_bad_spaces (t : Str) (Z : List Str) (m : GoMap) (hc : t.count 32 ≠ 1) :
    tokensOf (t :: Z) m = .error Error.errInvalidFormat := by
  have : (Split 32 t).length ≠ 2 := by
    rw [Split_length]
    omega
  simp [tokensOf, this]

/-! ## Ill-formed numbers -/

theorem longLine_noNL : 10 ∉ longLine := by
  intro h
  exact absurd (List.mem_replicate.1 h).2 (by decide)

theorem longLine_length : ¬ (longLine.length < MaxScanTokenSize) := by
  have h : longLine.length = 65536 := List.length_replicate _ _
  rw [h]
  decide

theorem longLine_noSpace : longLine.count 32 = 0 := by
  apply List.count_eq_zero.2
  intro h
  exact absurd (List.mem_replicate.1 h).2 (by decide)

/-- The scanner delivers nothing from a line that does not fit its buffer on. -/
theorem delivered_cut (pre : List Str) (l : Str) (post : List Str) (tail : Str)
    (hpre : ∀ x ∈ pre, x.length < MaxScanTokenSize) (hl : ¬ (l.length < MaxScanTokenSize)) :
    delivered (pre ++ l :: post) tail = pre.map dropCR := by
  unfold delivered linesOf
  rw [List.append_assoc, delivered_append pre _ hpre]
  simp [List.takeWhile_cons, hl]

/-- The scanner delivers all the lines when each fits its buffer. -/
theorem delivered_all (ls : List Str) (tail : Str)
    (h : ∀ x ∈ linesOf ls tail, x.length < MaxScanTokenSize) :
    delivered ls tail = (linesOf ls tail).map dropCR := by
  unfold delivered
  have := delivered_append (linesOf ls tail) [] h
  simpa using this

theorem delivered_prefix (ls : List Str) (tail : Str) (pre : List Str) (l : Str)
    (post : List Str) (hL : linesOf ls tail = pre ++ l :: post)
    (hshort : ∀ x ∈ pre ++ [l], x.length < MaxScanTokenSize) :
    ∃ Z, delivered ls tail = pre.map dropCR ++ dropCR l :: Z := by
  unfold delivered
  rw [hL, show pre ++ l :: post = (pre ++ [l]) ++ post by simp, delivered_append _ _ hshort]
  refine ⟨(post.takeWhile (fun l => decide (l.length < MaxScanTokenSize))).map dropCR, ?_⟩
  simp

theorem dtTokens_error (info : SpiderInfo) (texts : List Str) (e : Error)
    (h : tokensOf texts [] = .error e) : dtTokens info texts = (none, some e) := by
  simp only [dtTokens, h]

theorem dtTokens_ok (info : SpiderInfo) (texts : List Str) (m : GoMap)
    (h : tokensOf texts [] = .ok m) :
    dtTokens info texts = (some { info with TokenMap := some m }, none) := by
  simp only [dtTokens, h]

/-- The decoder on well-formed texts followed by the text of an integer field that
is no number of its base below `2^64`. -/
theorem dt_bad_number (P : List Str) (t : Str) (Z : List Str)
    (hP : ∀ j x, P[j]? = some x → lineOk j x = true)
    (hfield : isIntField P.length = true)
    (hspace : 8 ≤ P.length → t.count 32 = 1)
    (hbad : badNumber (fieldValue P.length (fieldText P.length t)) = true) :
    ∃ kind, dtVersion (P ++ t :: Z)
      = (none, some (Error.NumError (fieldText P.length t) kind)) := by
  rcases P with _ | ⟨a0, _ | ⟨a1, _ | ⟨a2, _ | ⟨a3, _ | ⟨a4, _ | ⟨a5, _ | ⟨a6, _ | ⟨a7, M⟩⟩⟩⟩⟩⟩⟩⟩
  · simp [isIntField] at hfield
  · have h0 : headerLineOk 0 a0 = true := hP 0 a0 rfl
    have hb : badNumber (hexValue t) = true := hbad
    show ∃ kind, dtVersion (a0 :: t :: Z) = (none, some (Error.NumError t kind))
    rw [dtVersion_ok a0 _ h0]
    exact dtStartPage_bad _ t Z (ParseUint_bad_hex t hb)
  · have h0 : headerLineOk 0 a0 = true := hP 0 a0 rfl
    have h1 : headerLineOk 1 a1 = true := hP 1 a1 rfl
    have hb : badNumber (decValue t) = true := hbad
    obtain ⟨i1, e1⟩ := dtStartPage_ok SpiderInfo.zero a1 h1
    show ∃ kind, dtVersion (a0 :: a1 :: t :: Z) = (none, some (Error.NumError t kind))
    rw [dtVersion_ok a0 _ h0, e1]
    exact dtGid_bad _ t Z (ParseUint_bad_dec t hb)
  · simp [isIntField] at hfield
  · simp [isIntField] at hfield
  · have h0 : headerLineOk 0 a0 = true := hP 0 a0 rfl
    have h1 : headerLineOk 1 a1 = true := hP 1 a1 rfl
    have h2 : headerLineOk 2 a2 = true := hP 2 a2 rfl
    have hb : badNumber (decValue t) = true := hbad
    obtain ⟨i1, e1⟩ := dtStartPage_ok SpiderInfo.zero a1 h1
    obtain ⟨i2, e2⟩ := dtGid_ok i1 a2 h2
    obtain ⟨i3, e3⟩ := dtToken_ok i2 a3
    show ∃ kind, dtVersion (a0 :: a1 :: a2 :: a3 :: a4 :: t :: Z)
      = (none, some (Error.NumError t kind))
    rw [dtVersion_ok a0 _ h0, e1, e2, e3, dtMode_ok]
    exact dtPreviewPages_bad _ t Z (ParseUint_bad_dec t hb)
  · have h0 : headerLineOk 0 a0 = true := hP 0 a0 rfl
    have h1 : headerLineOk 1 a1 = true := hP 1 a1 rfl
    have h2 : headerLineOk 2 a2 = true := hP 2 a2 rfl
    have h5 : headerLineOk 5 a5 = true := hP 5 a5 rfl
    have hb : badNumber (decValue t) = true := hbad
    obtain ⟨i1, e1⟩ := dtStartPage_ok SpiderInfo.zero a1 h1
    obtain ⟨i2, e2⟩ := dtGid_ok i1 a2 h2
    obtain ⟨i3, e3⟩ := dtToken_ok i2 a3
    obtain ⟨i5, e5⟩ := dtPreviewPages_ok i3 a5 h5
    show ∃ kind, dtVersion (a0 :: a1 :: a2 :: a3 :: a4 :: a5 :: t :: Z)
      = (none, some (Error.NumError t kind))
    rw [dtVersion_ok a0 _ h0, e1, e2, e3, dtMode_ok, e5]
    exact dtPreviewPerPage_bad _ t Z (ParseUint_bad_dec t hb)
  · have h0 : headerLineOk 0 a0 = true := hP 0 a0 rfl
    have h1 : headerLineOk 1 a1 = true := hP 1 a1 rfl
    have h2 : headerLineOk 2 a2 = true := hP 2 a2 rfl
    have h5 : headerLineOk 5 a5 = true := hP 5 a5 rfl
    have h6 : headerLineOk 6 a6 = true := hP 6 a6 rfl
    have hb : badNumber (decValue t) = true := hbad
    obtain ⟨i1, e1⟩ := dtStartPage_ok SpiderInfo.zero a1 h1
    obtain ⟨i2, e2⟩ := dtGid_ok i1 a2 h2
    obtain ⟨i3, e3⟩ := dtToken_ok i2 a3
    obtain ⟨i5, e5⟩ := dtPreviewPages_ok i3 a5 h5
    obtain ⟨i6, e6⟩ := dtPreviewPerPage_ok i5 a6 h6
    show ∃ kind, dtVersion (a0 :: a1 :: a2 :: a3 :: a4 :: a5 :: a6 :: t :: Z)
      = (none, some (Error.NumError t kind))
    rw [dtVersion_ok a0 _ h0, e1, e2, e3, dtMode_ok, e5, e6]
    exact dtPages_bad _ t Z (ParseUint_bad_dec t hb)
  · have h0 : headerLineOk 0 a0 = true := hP 0 a0 rfl
    have h1 : headerLineOk 1 a1 = true := hP 1 a1 rfl
    have h2 : headerLineOk 2 a2 = true := hP 2 a2 rfl
    have h5 : headerLineOk 5 a5 = true := hP 5 a5 rfl
    have h6 : headerLineOk 6 a6 = true := hP 6 a6 rfl
    have h7 : headerLineOk 7 a7 = true := hP 7 a7 (by simp)
    have hM : ∀ x ∈ M, mapLineOk x = true := by
      intro x hx
      obtain ⟨i, hi, rfl⟩ := List.getElem_of_mem hx
      have := hP (i + 8) M[i] (by simp [hi])
      simpa [lineOk] using this
    have hlen : (a0 :: a1 :: a2 :: a3 :: a4 :: a5 :: a6 :: a7 :: M).length = M.length + 8 := by
      simp
    rw [hlen] at hspace hbad ⊢
    have hge : ¬ (M.length + 8 < 8) := by omega
    have hne : ¬ (M.length + 8 = 1) := by omega
    simp only [fieldText, fieldValue, if_neg hge, if_neg hne] at hbad ⊢
    obtain ⟨info, e⟩ := dt_header_ok a0 a1 a2 a3 a4 a5 a6 a7 h0 h1 h2 h5 h6 h7
    obtain ⟨m1, e1⟩ := tokensOf_ok_prefix M [] hM
    obtain ⟨kind, hk⟩ := tokensOf_bad_index t Z m1 (hspace (by omega)) hbad
    refine ⟨kind, ?_⟩
    show dtVersion (a0 :: a1 :: a2 :: a3 :: a4 :: a5 :: a6 :: a7 :: (M ++ t :: Z)) = _
    rw [e]
    exact dtTokens_error _ _ _ (by rw [e1, hk])

theorem lineOk_map_dropCR (pre : List Str)
    (hpre : ∀ j x, pre[j]? = some x → lineOk j (dropCR x) = true) :
    ∀ j x, (pre.map dropCR)[j]? = some x → lineOk j x = true := by
  intro j x hx
  rw [List.getElem?_map] at hx
  cases hp : pre[j]? with
  | none => rw [hp] at hx; simp at hx
  | some y =>
    rw [hp] at hx
    simp only [Option.map_some', Option.some.injEq] at hx
    subst hx
    exact hpre j y hp

/-- C11, with the lines as the scanner hands them over. A text in which the lines
before an integer field are well-formed, every line up to the field is shorter
than `MaxScanTokenSize`, and the text of the field (the line less one terminal
carriage return for a header field, the part before the single space for a
mapping line) is no numeral of its base or denotes `2^64` or more, yields no
record and a `NumError` of `ParseUint` that carries the text of the field, an
error value other than `errInvalidFormat`. -/
theorem bad_number_rejected (ls : List Str) (tail : Str)
    (hls : ∀ l ∈ ls, 10 ∉ l) (htail : 10 ∉ tail)
    (pre : List Str) (l : Str) (post : List Str)
    (hL : linesOf ls tail = pre ++ l :: post)
    (hshort : ∀ x ∈ pre ++ [l], x.length < MaxScanTokenSize)
    (hpre : ∀ j x, pre[j]? = some x → lineOk j (dropCR x) = true)
    (hfield : isIntField pre.length = true)
    (hspace : 8 ≤ pre.length → (dropCR l).count 32 = 1)
    (hbad : badNumber (fieldValue pre.length (fieldText pre.length (dropCR l))) = true) :
    ∃ kind,
      NewInfoFromPlain (joinLines ls ++ tail)
        = (none, some (Error.NumError (fieldText pre.length (dropCR l)) kind)) ∧
      Error.NumError (fieldText pre.length (dropCR l)) kind ≠ Error.errInvalidFormat := by
  obtain ⟨Z, hZ⟩ := delivered_prefix ls tail pre l post hL hshort
  have hlen : (pre.map dropCR).length = pre.length := List.length_map _ _
  obtain ⟨kind, hk⟩ := dt_bad_number (pre.map dropCR) (dropCR l) Z
    (lineOk_map_dropCR pre hpre) (by rw [hlen]; exact hfield)
    (by rw [hlen]; exact hspace) (by rw [hlen]; exact hbad)
  rw [hlen] at hk
  refine ⟨kind, ?_, by simp⟩
  rw [NewInfoFromPlain_lines ls tail hls htail, hZ]
  exact hk

theorem bad_number_rejected_witness :
    ∃ kind,
      NewInfoFromPlain (joinLines [ascii "VERSION2", ascii "0000002a", ascii "abc"] ++ [])
        = (none, some (Error.NumError (ascii "abc") kind)) ∧
      Error.NumError (ascii "abc") kind ≠ Error.errInvalidFormat :=
  bad_number_rejected [ascii "VERSION2", ascii "0000002a", ascii "abc"] []
    (by decide) (by decide) [ascii "VERSION2", ascii "0000002a"] (ascii "abc") []
    (by decide) (by decide)
    (by
      intro j x h
      match j with
      | 0 => simp at h; subst h; decide
      | 1 => simp at h; subst h; decide
      | j + 2 => simp at h)
    (by decide) (by decide) (by decide)

/-- The decoder on a text with a line that does not fit the buffer of the scanner:
the lines before it are all it sees. -/
theorem NewInfoFromPlain_cut (pre : List Str) (l : Str) (post : List Str)
    (hNL : ∀ x ∈ pre ++ l :: post, 10 ∉ x)
    (hpre : ∀ x ∈ pre, x.length < MaxScanTokenSize) (hl : ¬ (l.length < MaxScanTokenSize)) :
    NewInfoFromPlain (joinLines (pre ++ l :: post)) = dtVersion (pre.map dropCR) := by
  have := NewInfoFromPlain_lines (pre ++ l :: post) [] hNL (by simp)
  rw [List.append_nil] at this
  rw [this, delivered_cut pre l post [] hpre hl]

/-- C11, as stated, fails: an id line of 65536 bytes `x`, no digit among them, is
answered with `errInvalidFormat`, and the id line `12345` with a carriage return
at its end is decoded. -/
theorem bad_number_not_reported :
    NewInfoFromPlain (joinLines ([ascii "VERSION2", ascii "0000002a"] ++
        longLine :: [ascii "abctoken", ascii "1", ascii "2", ascii "5", ascii "100"]))
      = (none, some Error.errInvalidFormat) ∧
    NewInfoFromPlain (ascii "VERSION2\n0000002a\n12345\r\nabctoken\n1\n2\n5\n100\n")
      = (some { exampleInfo with TokenMap := some [] }, none) := by
  refine ⟨?_, by decide⟩
  rw [NewInfoFromPlain_cut _ longLine _ ?_ (by decide) longLine_length]
  · decide
  · intro x hx
    simp only [List.cons_append, List.nil_append, List.mem_cons, List.mem_singleton,
      List.not_mem_nil, or_false] at hx
    rcases hx with rfl | rfl | rfl | rfl | rfl | rfl | rfl | rfl
    · decide
    · decide
    · exact longLine_noNL
    · decide
    · decide
    · decide
    · decide
    · decide

/-! ## Mapping lines and the mode line -/

/-- After eight well-formed header texts and well-formed mapping texts the outcome
is that of the mapping loop on what follows. -/
theorem dt_mapping_prefix (P : List Str)
    (hP : ∀ j x, P[j]? = some x → lineOk j x = true) (h8 : 8 ≤ P.length) :
    ∃ (info : SpiderInfo) (m1 : GoMap), ∀ W,
      (∀ e, tokensOf W m1 = .error e → dtVersion (P ++ W) = (none, some e)) ∧
      (∀ m, tokensOf W m1 = .ok m →
        dtVersion (P ++ W) = (some { info with TokenMap := some m }, none)) := by
  rcases P with _ | ⟨a0, _ | ⟨a1, _ | ⟨a2, _ | ⟨a3, _ | ⟨a4, _ | ⟨a5, _ | ⟨a6, _ | ⟨a7, M⟩⟩⟩⟩⟩⟩⟩⟩
  any_goals (simp at h8)
  have h0 : headerLineOk 0 a0 = true := hP 0 a0 rfl
  have h1 : headerLineOk 1 a1 = true := hP 1 a1 rfl
  have h2 : headerLineOk 2 a2 = true := hP 2 a2 rfl
  have h5 : headerLineOk 5 a5 = true := hP 5 a5 rfl
  have h6 : headerLineOk 6 a6 = true := hP 6 a6 rfl
  have h7 : headerLineOk 7 a7 = true := hP 7 a7 (by simp)
  have hM : ∀ x ∈ M, mapLineOk x = true := by
    intro x hx
    obtain ⟨i, hi, rfl⟩ := List.getElem_of_mem hx
    have := hP (i + 8) M[i] (by simp [hi])
    simpa [lineOk] using this
  obtain ⟨info, e⟩ := dt_header_ok a0 a1 a2 a3 a4 a5 a6 a7 h0 h1 h2 h5 h6 h7
  obtain ⟨m1, e1⟩ := tokensOf_ok_prefix M [] hM
  refine ⟨info, m1, fun W => ⟨fun err herr => ?_, fun m hm => ?_⟩⟩
  · show dtVersion (a0 :: a1 :: a2 :: a3 :: a4 :: a5 :: a6 :: a7 :: (M ++ W)) = _
    rw [e]
    exact dtTokens_error _ _ _ (by rw [e1, herr])
  · show dtVersion (a0 :: a1 :: a2 :: a3 :: a4 :: a5 :: a6 :: a7 :: (M ++ W)) = _
    rw [e]
    exact dtTokens_ok _ _ _ (by rw [e1, hm])

/-- The mapping loop on lines the scanner can hold. After eight well-formed header
lines and well-formed mapping lines, all shorter than `MaxScanTokenSize`: a next
line, shorter than `MaxScanTokenSize` too, without space or with two or more
spaces ends the decoding with `errInvalidFormat` and no record; and when no line
follows, the text is accepted, so lines with exactly one space and a valid
decimal index are. -/
theorem malformed_mapping_line (ls : List Str) (tail : Str)
    (hls : ∀ l ∈ ls, 10 ∉ l) (htail : 10 ∉ tail)
    (pre : List Str) (h8 : 8 ≤ pre.length)
    (hpre : ∀ j x, pre[j]? = some x → lineOk j (dropCR x) = true)
    (hshort : ∀ x ∈ pre, x.length < MaxScanTokenSize) :
    (∀ l post, linesOf ls tail = pre ++ l :: post → l.length < MaxScanTokenSize →
      l.count 32 ≠ 1 →
      NewInfoFromPlain (joinLines ls ++ tail) = (none, some Error.errInvalidFormat)) ∧
    (linesOf ls tail = pre →
      ∃ info, NewInfoFromPlain (joinLines ls ++ tail) = (some info, none)) := by
  have hlen : (pre.map dropCR).length = pre.length := List.length_map _ _
  obtain ⟨info, m1, hW⟩ := dt_mapping_prefix (pre.map dropCR) (lineOk_map_dropCR pre hpre)
    (by rw [hlen]; exact h8)
  constructor
  · intro l post hL hl hsp
    have hshort1 : ∀ x ∈ pre ++ [l], x.length < MaxScanTokenSize := by
      intro x hx
      rcases List.mem_append.1 hx with h | h
      · exact hshort x h
      · simp only [List.mem_singleton] at h
        subst h
        exact hl
    obtain ⟨Z, hZ⟩ := delivered_prefix ls tail pre l post hL hshort1
    rw [NewInfoFromPlain_lines ls tail hls htail, hZ]
    exact (hW _).1 _ (tokensOf_bad_spaces (dropCR l) Z m1 (by rw [count_dropCR]; exact hsp))
  · intro hL
    have hall : ∀ x ∈ linesOf ls tail, x.length < MaxScanTokenSize := by
      rw [hL]; exact hshort
    rw [NewInfoFromPlain_lines ls tail hls htail, delivered_all ls tail hall, hL]
    have := (hW []).2 m1 rfl
    rw [List.append_nil] at this
    exact ⟨_, this⟩

theorem malformed_mapping_line_witness :
    NewInfoFromPlain (joinLines [ascii "VERSION2", ascii "0000002a", ascii "12345",
        ascii "abctoken", ascii "1", ascii "2", ascii "5", ascii "100", ascii "0 tok0",
        ascii "3  tok3"] ++ []) = (none, some Error.errInvalidFormat) :=
  (malformed_mapping_line [ascii "VERSION2", ascii "0000002a", ascii "12345",
        ascii "abctoken", ascii "1", ascii "2", ascii "5", ascii "100", ascii "0 tok0",
        ascii "3  tok3"] [] (by decide) (by decide)
      [ascii "VERSION2", ascii "0000002a", ascii "12345",
        ascii "abctoken", ascii "1", ascii "2", ascii "5", ascii "100", ascii "0 tok0"]
      (by decide)
      (by
        intro j x h
        match j with
        | 0 => simp at h; subst h; decide
        | 1 => simp at h; subst h; decide
        | 2 => simp at h; subst h; decide
        | 3 => simp at h; subst h; decide
        | 4 => simp at h; subst h; decide
        | 5 => simp at h; subst h; decide
        | 6 => simp at h; subst h; decide
        | 7 => simp at h; subst h; decide
        | 8 => simp at h; subst h; decide
        | j + 9 => simp at h)
      (by decide)).1 (ascii "3  tok3") [] (by decide) (by decide) (by decide)

/-- C12, at the failing input. After the header of the example, a line of 65536
bytes `x` (no space in it) and then the line `0 tok0`: the loop `for rd.Scan()`
ends at the line the scanner cannot hold and `rd.Err()` is not consulted, so the
text is not rejected with `errInvalidFormat`; the record read so far is returned
without error, its map empty, and the well-formed line `0 tok0` is lost. -/
theorem long_mapping_line_accepted :
    longLine.count 32 = 0 ∧
    NewInfoFromPlain (joinLines ([ascii "VERSION2", ascii "0000002a", ascii "12345",
        ascii "abctoken", ascii "1", ascii "2", ascii "5", ascii "100"] ++
        longLine :: [ascii "0 tok0"]))
      = (some { exampleInfo with TokenMap := some [] }, none) := by
  refine ⟨longLine_noSpace, ?_⟩
  rw [NewInfoFromPlain_cut _ longLine _ ?_ (by decide) longLine_length]
  · decide
  · intro x hx
    simp only [List.cons_append, List.nil_append, List.mem_cons, List.mem_singleton,
      List.not_mem_nil, or_false] at hx
    rcases hx with rfl | rfl | rfl | rfl | rfl | rfl | rfl | rfl | rfl | rfl
    · decide
    · decide
    · decide
    · decide
    · decide
    · decide
    · decide
    · decide
    · exact longLine_noNL
    · decide

theorem takeWhile_not_all {α : Type} (p : α → Bool) (pre X : List α)
    (h : ¬ ∀ x ∈ pre, p x = true) : (pre ++ X).takeWhile p = pre.takeWhile p := by
  induction pre with
  | nil => exact absurd (by simp) h
  | cons a pre ih =>
    by_cases ha : p a = true
    · have h1 : ¬ ∀ x ∈ pre, p x = true := by
        intro hall
        apply h
        intro x hx
        rcases List.mem_cons.1 hx with rfl | hx
        · exact ha
        · exact hall x hx
      simp [List.takeWhile_cons, ha, ih h1]
    · simp [List.takeWhile_cons, ha]

/-- The decoder does not look at the fifth text. -/
theorem dtVersion_skip_mode (P : List Str) (hP : P.length = 4) (t1 t2 : Str) (Z : List Str) :
    dtVersion (P ++ t1 :: Z) = dtVersion (P ++ t2 :: Z) := by
  rcases P with _ | ⟨a, _ | ⟨b, _ | ⟨c, _ | ⟨d, _ | ⟨e, P⟩⟩⟩⟩⟩
  any_goals (simp at hP)
  simp only [List.cons_append, List.nil_append, dtVersion, dtStartPage, dtGid, dtToken, dtMode]

theorem dtVersion_mode_last (P : List Str) (hP : P.length = 4) (t : Str) :
    dtVersion (P ++ [t]) = dtVersion P := by
  rcases P with _ | ⟨a, _ | ⟨b, _ | ⟨c, _ | ⟨d, _ | ⟨e, P⟩⟩⟩⟩⟩
  any_goals (simp at hP)
  simp only [List.cons_append, List.nil_append, dtVersion, dtStartPage, dtGid, dtToken, dtMode,
    dtPreviewPages]

theorem dt_delivered_mode (pre : List Str) (hpre : pre.length = 4) (m1 m2 : Str)
    (X : List Str) (hlen1 : m1.length < MaxScanTokenSize) (hlen2 : m2.length < MaxScanTokenSize) :
    dtVersion (((pre ++ m1 :: X).takeWhile
        (fun l => decide (l.length < MaxScanTokenSize))).map dropCR)
      = dtVersion (((pre ++ m2 :: X).takeWhile
        (fun l => decide (l.length < MaxScanTokenSize))).map dropCR) := by
  by_cases hall : ∀ x ∈ pre, x.length < MaxScanTokenSize
  · rw [delivered_append pre _ hall, delivered_append pre _ hall]
    simp only [List.takeWhile_cons, hlen1, hlen2, decide_True, if_true, List.map_cons]
    exact dtVersion_skip_mode _ (by simpa using hpre) _ _ _
  · have h : ¬ ∀ x ∈ pre, (fun l : Str => decide (l.length < MaxScanTokenSize)) x = true := by
      simpa using hall
    rw [takeWhile_not_all _ pre _ h, takeWhile_not_all _ pre _ h]

theorem dt_delivered_mode_last (pre : List Str) (hpre : pre.length = 4) (m : Str)
    (hlen : m.length < MaxScanTokenSize) :
    dtVersion (delivered pre m) = dtVersion (delivered pre []) := by
  unfold delivered linesOf
  by_cases hall : ∀ x ∈ pre, x.length < MaxScanTokenSize
  · rw [delivered_append pre _ hall, delivered_append pre _ hall]
    by_cases hm : m = []
    · rw [if_pos hm]
      rfl
    · rw [if_neg hm]
      simp only [List.takeWhile_cons, hlen, decide_True, if_true, List.map_cons,
        List.takeWhile_nil, List.map_nil, if_pos, List.append_nil]
      exact dtVersion_mode_last _ (by simpa using hpre) _
  · have h : ¬ ∀ x ∈ pre, (fun l : Str => decide (l.length < MaxScanTokenSize)) x = true := by
      simpa using hall
    rw [takeWhile_not_all _ pre _ h, takeWhile_not_all _ pre _ h]

/-- C17, for mode lines the scanner can hold. Two texts that are the same four
lines, then a fifth line of any bytes without newline and shorter than
`MaxScanTokenSize`, then the same remainder, are decoded to the same outcome,
the same record or the same error. -/
theorem mode_line_irrelevant (pre : List Str) (m1 m2 post : Str)
    (hpre : pre.length = 4) (hpreNL : ∀ l ∈ pre, 10 ∉ l)
    (h1 : 10 ∉ m1) (h2 : 10 ∉ m2)
    (hpost : post = [] ∨ ∃ rest, post = 10 :: rest)
    (hlen1 : m1.length < MaxScanTokenSize) (hlen2 : m2.length < MaxScanTokenSize) :
    NewInfoFromPlain (joinLines pre ++ m1 ++ post)
      = NewInfoFromPlain (joinLines pre ++ m2 ++ post) := by
  rcases hpost with rfl | ⟨rest, rfl⟩
  · simp only [List.append_nil]
    rw [NewInfoFromPlain_lines pre m1 hpreNL h1, NewInfoFromPlain_lines pre m2 hpreNL h2,
      dt_delivered_mode_last pre hpre m1 hlen1, dt_delivered_mode_last pre hpre m2 hlen2]
  · obtain ⟨lsR, tailR, hR, hlsR, htailR⟩ := text_decomposition rest
    have e : ∀ m : Str, joinLines pre ++ m ++ 10 :: rest
        = joinLines (pre ++ m :: lsR) ++ tailR := by
      intro m
      rw [hR, joinLines_append]
      simp [joinLines]
    have hNL : ∀ m : Str, 10 ∉ m → ∀ l ∈ pre ++ m :: lsR, 10 ∉ l := by
      intro m hm l hl
      rcases List.mem_append.1 hl with h | h
      · exact hpreNL l h
      · rcases List.mem_cons.1 h with rfl | h
        · exact hm
        · exact hlsR l h
    rw [e m1, e m2, NewInfoFromPlain_lines _ _ (hNL m1 h1) htailR,
      NewInfoFromPlain_lines _ _ (hNL m2 h2) htailR]
    unfold delivered linesOf
    rw [List.append_assoc, List.append_assoc, List.cons_append, List.cons_append]
    exact dt_delivered_mode pre hpre m1 m2 _ hlen1 hlen2

theorem mode_line_irrelevant_witness :
    NewInfoFromPlain (joinLines [ascii "VERSION2", ascii "0000002a", ascii "12345",
        ascii "abctoken"] ++ ascii "1" ++ ascii "\n2\n5\n100\n0 tok0\n")
      = NewInfoFromPlain (joinLines [ascii "VERSION2", ascii "0000002a", ascii "12345",
        ascii "abctoken"] ++ ascii "any thing\r" ++ ascii "\n2\n5\n100\n0 tok0\n") :=
  mode_line_irrelevant [ascii "VERSION2", ascii "0000002a", ascii "12345", ascii "abctoken"]
    (ascii "1") (ascii "any thing\r") (ascii "\n2\n5\n100\n0 tok0\n")
    (by decide) (by decide) (by decide) (by decide)
    (Or.inr ⟨ascii "2\n5\n100\n0 tok0\n", by decide⟩) (by decide) (by decide)

/-- C17, as stated, fails: with the mode line `1` the text is decoded, and with a
mode line of 65536 bytes `x`, without newline, the same text is rejected. -/
theorem long_mode_line_rejected :
    10 ∉ longLine ∧
    NewInfoFromPlain (joinLines ([ascii "VERSION2", ascii "0000002a", ascii "12345",
        ascii "abctoken"] ++ ascii "1" :: [ascii "2", ascii "5", ascii "100"]))
      = (some { exampleInfo with TokenMap := some [] }, none) ∧
    NewInfoFromPlain (joinLines ([ascii "VERSION2", ascii "0000002a", ascii "12345",
        ascii "abctoken"] ++ longLine :: [ascii "2", ascii "5", ascii "100"]))
      = (none, some Error.errInvalidFormat) := by
  refine ⟨longLine_noNL, by decide, ?_⟩
  rw [NewInfoFromPlain_cut _ longLine _ ?_ (by decide) longLine_length]
  · decide
  · intro x hx
    simp only [List.cons_append, List.nil_append, List.mem_cons, List.mem_singleton,
      List.not_mem_nil, or_false] at hx
    rcases hx with rfl | rfl | rfl | rfl | rfl | rfl | rfl | rfl
    · decide
    · decide
    · decide
    · decide
    · exact longLine_noNL
    · decide
    · decide
    · decide

/-! ## Repeated indices -/

theorem GoMap.mem_keys_set (m : GoMap) (k : Int) (v : Str) (k1 : Int) :
    k1 ∈ (m.set k v).map Prod.fst ↔ k1 = k ∨ k1 ∈ m.map Prod.fst := by
  induction m with
  | nil => simp [GoMap.set]
  | cons p m ih =>
    obtain ⟨k2, v2⟩ := p
    unfold GoMap.set
    by_cases h : k2 = k
    · subst h
      simp
    · rw [if_neg h]
      simp only [List.map_cons, List.mem_cons, ih]
      tauto

theorem GoMap.set_nodup (m : GoMap) (k : Int) (v : Str) (h : (m.map Prod.fst).Nodup) :
    ((m.set k v).map Prod.fst).Nodup := by
  induction m with
  | nil => simp [GoMap.set]
  | cons p m ih =>
    obtain ⟨k2, v2⟩ := p
    simp only [List.map_cons, List.nodup_cons] at h
    unfold GoMap.set
    by_cases hk : k2 = k
    · subst hk
      rw [if_pos rfl]
      simpa using h
    · rw [if_neg hk]
      simp only [List.map_cons, List.nodup_cons]
      refine ⟨?_, ih h.2⟩
      intro hmem
      rcases (GoMap.mem_keys_set m k v k2).1 hmem with e | e
      · exact hk e
      · exact h.1 e

theorem GoMap.get_set_self (m : GoMap) (k : Int) (v : Str) : (m.set k v).get k = v := by
  induction m with
  | nil => simp [GoMap.set, GoMap.get]
  | cons p m ih =>
    obtain ⟨k2, v2⟩ := p
    unfold GoMap.set
    by_cases hk : k2 = k
    · rw [if_pos hk]
      simp [GoMap.get]
    · rw [if_neg hk]
      simp [GoMap.get, hk, ih]

theorem GoMap.get_set_ne (m : GoMap) (k : Int) (v : Str) (k1 : Int) (h : k1 ≠ k) :
    (m.set k v).get k1 = m.get k1 := by
  induction m with
  | nil => simp [GoMap.set, GoMap.get, Ne.symm h]
  | cons p m ih =>
    obtain ⟨k2, v2⟩ := p
    unfold GoMap.set
    by_cases hk : k2 = k
    · rw [if_pos hk]
      subst hk
      simp [GoMap.get, Ne.symm h]
    · rw [if_neg hk]
      by_cases hk1 : k2 = k1
      · simp [GoMap.get, hk1]
      · simp [GoMap.get, hk1, ih]

theorem foldEntries_nil (m : GoMap) : foldEntries [] m = m := rfl

theorem foldEntries_cons (e : Str × Str) (es : List (Str × Str)) (m : GoMap) :
    foldEntries (e :: es) m = foldEntries es (m.set (entryKey e : Int) e.2) := rfl

theorem foldEntries_append (es1 es2 : List (Str × Str)) (m : GoMap) :
    foldEntries (es1 ++ es2) m = foldEntries es2 (foldEntries es1 m) := by
  unfold foldEntries
  rw [List.foldl_append]

theorem foldEntries_nodup (es : List (Str × Str)) :
    ∀ m : GoMap, (m.map Prod.fst).Nodup → ((foldEntries es m).map Prod.fst).Nodup := by
  induction es with
  | nil => intro m h; exact h
  | cons e es ih =>
    intro m h
    rw [foldEntries_cons]
    exact ih _ (GoMap.set_nodup m _ _ h)

theorem foldEntries_keys (es : List (Str × Str)) :
    ∀ (m : GoMap) (k : Int), k ∈ (foldEntries es m).map Prod.fst ↔
      k ∈ m.map Prod.fst ∨ k ∈ es.map (fun e => (entryKey e : Int)) := by
  induction es with
  | nil => intro m k; simp [foldEntries_nil]
  | cons e es ih =>
    intro m k
    rw [foldEntries_cons, ih, GoMap.mem_keys_set]
    simp only [List.map_cons, List.mem_cons]
    tauto

theorem foldEntries_get_other (es : List (Str × Str)) :
    ∀ (m : GoMap) (k : Int), k ∉ es.map (fun e => (entryKey e : Int)) →
      (foldEntries es m).get k = m.get k := by
  induction es with
  | nil => intro m k _; rfl
  | cons e es ih =>
    intro m k hk
    simp only [List.map_cons, List.mem_cons, not_or] at hk
    rw [foldEntries_cons, ih _ k hk.2, GoMap.get_set_ne _ _ _ _ hk.1]

/-- The last mapping line for an index gives the token of that index. -/
theorem foldEntries_last (pre : List (Str × Str)) (e : Str × Str) (post : List (Str × Str))
    (m : GoMap) (h : entryKey e ∉ post.map entryKey) :
    (foldEntries (pre ++ e :: post) m).get (entryKey e : Int) = e.2 := by
  have h1 : (entryKey e : Int) ∉ post.map (fun x => (entryKey x : Int)) := by
    intro hmem
    obtain ⟨x, hx, hxe⟩ := List.mem_map.1 hmem
    have : entryKey x = entryKey e := by exact_mod_cast hxe
    exact h (List.mem_map.2 ⟨x, hx, this⟩)
  rw [foldEntries_append, foldEntries_cons, foldEntries_get_other post _ _ h1,
    GoMap.get_set_self]

theorem dropCR_entryLine {e : Str × Str} (h : EntryOk e) : dropCR (entryLine e) = entryLine e :=
  dropCR_eq _ h.2.2.2.2.1

theorem tokensOf_entries (es : List (Str × Str)) :
    ∀ m : GoMap, (∀ e ∈ es, EntryOk e) →
      tokensOf (es.map entryLine) m = .ok (foldEntries es m) := by
  induction es with
  | nil => intro m _; rfl
  | cons e es ih =>
    intro m hok
    have he : EntryOk e := hok e (by simp)
    have hkey := he.key
    obtain ⟨-, hk63, h32, -, -, -⟩ := id he
    obtain ⟨-, hb⟩ := decValue_bytes e.1 _ hkey
    have hsplit : Split 32 (entryLine e) = [e.1, e.2] :=
      Split_one_sep 32 e.1 e.2 (not_mem_of_ge e.1 57 hb 32 (by omega)) h32
    have hparse : ParseUint e.1 10 = .ok (entryKey e) := ParseUint_dec e.1 _ hkey (by omega)
    rw [foldEntries_cons, ← ih _ (fun x hx => hok x (by simp [hx]))]
    simp [tokensOf, hsplit, hparse, toInt_small _ hk63]

/-- The decoder on a text of the grammar, whatever the indices of its mapping
lines: the header fields as written, and the map that the mapping lines leave
behind when read in order. -/
theorem grammar_decodes (h g t mode p1 p2 p3 : Str) (es : List (Str × Str))
    (vh vg v1 v2 v3 : Nat) (ls : List Str) (tail : Str)
    (hdec : linesOf ls tail
      = [ascii "VERSION2", h, g, t, mode, p1, p2, p3] ++ es.map entryLine)
    (hh : hexValue h = some vh) (hg : decValue g = some vg)
    (h1 : decValue p1 = some v1) (h2 : decValue p2 = some v2) (h3 : decValue p3 = some v3)
    (hbound : vh < 2 ^ 63 ∧ vg < 2 ^ 63 ∧ v1 < 2 ^ 63 ∧ v2 < 2 ^ 63 ∧ v3 < 2 ^ 63)
    (ht : 10 ∉ t ∧ t.getLast? ≠ some 13) (hmode : 10 ∉ mode)
    (hes : ∀ e ∈ es, EntryOk e)
    (hlen : ∀ l ∈ [h, g, t, mode, p1, p2, p3], l.length < MaxScanTokenSize) :
    NewInfoFromPlain (joinLines ls ++ tail) =
      (some { StartPage := (vh : Int), GID := (vg : Int), Token := t,
              PreviewPages := (v1 : Int), PreviewPerPage := (v2 : Int), Pages := (v3 : Int),
              TokenMap := some (foldEntries es []) }, none) := by
  obtain ⟨bh, bg, b1, b2, b3⟩ := hbound
  obtain ⟨-, dh⟩ := hexValue_bytes h vh hh
  obtain ⟨-, dg⟩ := decValue_bytes g vg hg
  obtain ⟨-, d1⟩ := decValue_bytes p1 v1 h1
  obtain ⟨-, d2⟩ := decValue_bytes p2 v2 h2
  obtain ⟨-, d3⟩ := decValue_bytes p3 v3 h3
  have hNLall : ∀ x ∈ linesOf ls tail, 10 ∉ x := by
    rw [hdec]
    intro x hx
    simp only [List.cons_append, List.nil_append, List.mem_cons, List.mem_map] at hx
    rcases hx with rfl | rfl | rfl | rfl | rfl | rfl | rfl | rfl | ⟨e, he, rfl⟩
    · exact VERSION2_noNL
    · exact not_mem_of_ge _ 102 dh 10 (by omega)
    · exact not_mem_of_ge _ 57 dg 10 (by omega)
    · exact ht.1
    · exact hmode
    · exact not_mem_of_ge _ 57 d1 10 (by omega)
    · exact not_mem_of_ge _ 57 d2 10 (by omega)
    · exact not_mem_of_ge _ 57 d3 10 (by omega)
    · exact (hes e he).noNL
  have hls : ∀ l ∈ ls, 10 ∉ l := fun l hl => hNLall l (by simp [linesOf, hl])
  have htail : 10 ∉ tail := by
    by_cases htl : tail = []
    · simp [htl]
    · exact hNLall tail (by simp [linesOf, htl])
  have hshort : ∀ x ∈ linesOf ls tail, x.length < MaxScanTokenSize := by
    rw [hdec]
    intro x hx
    simp only [List.cons_append, List.nil_append, List.mem_cons, List.mem_map] at hx
    rcases hx with rfl | rfl | rfl | rfl | rfl | rfl | rfl | rfl | ⟨e, he, rfl⟩
    · exact VERSION2_length
    · exact hlen _ (by simp)
    · exact hlen _ (by simp)
    · exact hlen _ (by simp)
    · exact hlen _ (by simp)
    · exact hlen _ (by simp)
    · exact hlen _ (by simp)
    · exact hlen _ (by simp)
    · exact (hes e he).2.2.2.2.2
  have hmap : (es.map entryLine).map dropCR = es.map entryLine := by
    rw [List.map_map]
    apply List.map_congr_left
    intro e he
    exact dropCR_entryLine (hes e he)
  rw [NewInfoFromPlain_lines ls tail hls htail, delivered_all ls tail hshort, hdec]
  simp only [List.cons_append, List.nil_append, List.map_cons, hmap, VERSION2_dropCR,
    dropCR_digits h 102 dh, dropCR_digits g 57 dg, dropCR_eq t ht.2, dropCR_digits p1 57 d1,
    dropCR_digits p2 57 d2, dropCR_digits p3 57 d3]
  rw [dtVersion_ok _ _ (by decide), dtStartPage_step _ h vh _ (ParseUint_hex h vh hh (by omega)),
    dtGid_step _ g vg _ (ParseUint_dec g vg hg (by omega))]
  simp only [dtToken, dtMode]
  rw [dtPreviewPages_step _ p1 v1 _ (ParseUint_dec p1 v1 h1 (by omega)),
    dtPreviewPerPage_step _ p2 v2 _ (ParseUint_dec p2 v2 h2 (by omega)),
    dtPages_step _ p3 v3 _ (ParseUint_dec p3 v3 h3 (by omega)),
    dtTokens_ok _ _ _ (tokensOf_entries es [] hes)]
  simp only [toInt_small _ bh, toInt_small _ bg, toInt_small _ b1, toInt_small _ b2,
    toInt_small _ b3, SpiderInfo.zero]

/-- C19, as stated, fails, in two ways. After the example header the mapping lines
`0 first` and `0 last` followed by a carriage return are both well-formed, and
the token of the last line carrying index 0 is `last` with the carriage return;
the text is decoded, but index 0 is mapped to `last` without it, since the
scanner drops a carriage return at the end of a line. And with a token line of
65536 bytes in the header, before the two lines `0 first` and `0 last`, the
text is not decoded: the scanner cannot hold the line and the header answers
with `errInvalidFormat`. -/
theorem duplicate_text_not_decoded :
    (mapLineOk (ascii "0 first") = true ∧ mapLineOk (ascii "0 last\r") = true ∧
      mapToken (ascii "0 last\r") = ascii "last\r" ∧
      NewInfoFromPlain (ascii "VERSION2\n0000002a\n12345\nabctoken\n1\n2\n5\n100\n0 first\n0 last\r\n")
        = (some { exampleInfo with TokenMap := some [(0, ascii "last")] }, none)) ∧
    NewInfoFromPlain (joinLines ([ascii "VERSION2", ascii "0000002a", ascii "12345"] ++
        longLine :: [ascii "1", ascii "2", ascii "5", ascii "100", ascii "0 first",
          ascii "0 last"]))
      = (none, some Error.errInvalidFormat) := by
  refine ⟨by decide, ?_⟩
  rw [NewInfoFromPlain_cut _ longLine _ ?_ (by decide) longLine_length]
  · decide
  · intro x hx
    simp only [List.cons_append, List.nil_append, List.mem_cons, List.mem_singleton,
      List.not_mem_nil, or_false] at hx
    rcases hx with rfl | rfl | rfl | rfl | rfl | rfl | rfl | rfl | rfl | rfl
    · decide
    · decide
    · decide
    · exact longLine_noNL
    · decide
    · decide
    · decide
    · decide
    · decide
    · decide

/-- C19, for lines the scanner can hold and mapping lines it delivers as they
stand. A text of eight header lines, each shorter than `MaxScanTokenSize` and
well-formed as the scanner delivers it (a carriage return at its end dropped),
followed by mapping lines `<index> <token>` (a decimal index below `2^63`, a
token without space, no carriage return at the end of the line, the line
shorter than `MaxScanTokenSize`), whatever indices repeat, is decoded; the
returned map has one entry per distinct index, its indices are those of the
lines, and an index is mapped to the token of the last line that carries it. -/
theorem duplicate_index_last_wins (ls : List Str) (tail : Str)
    (hls : ∀ l ∈ ls, 10 ∉ l) (htail : 10 ∉ tail)
    (hd : List Str) (es : List (Str × Str))
    (hdec : linesOf ls tail = hd ++ es.map entryLine)
    (h8 : hd.length = 8)
    (hhd : ∀ j x, hd[j]? = some x → headerLineOk j (dropCR x) = true)
    (hshort : ∀ x ∈ hd, x.length < MaxScanTokenSize)
    (hes : ∀ e ∈ es, EntryOk e) :
    ∃ (info : SpiderInfo) (m : GoMap),
      NewInfoFromPlain (joinLines ls ++ tail) = (some info, none) ∧
      info.TokenMap = some m ∧
      (m.map Prod.fst).Nodup ∧
      (∀ k : Int, k ∈ m.map Prod.fst ↔ k ∈ es.map (fun e => (entryKey e : Int))) ∧
      (∀ pre e post, es = pre ++ e :: post → entryKey e ∉ post.map entryKey →
        m.get (entryKey e : Int) = e.2) := by
  rcases hd with _ | ⟨a0, _ | ⟨a1, _ | ⟨a2, _ | ⟨a3, _ | ⟨a4, _ | ⟨a5, _ | ⟨a6, _ | ⟨a7, M⟩⟩⟩⟩⟩⟩⟩⟩
  any_goals (simp at h8)
  subst h8
  obtain ⟨info, e⟩ := dt_header_ok (dropCR a0) (dropCR a1) (dropCR a2) (dropCR a3) (dropCR a4)
    (dropCR a5) (dropCR a6) (dropCR a7) (hhd 0 a0 rfl) (hhd 1 a1 rfl) (hhd 2 a2 rfl)
    (hhd 5 a5 rfl) (hhd 6 a6 rfl) (hhd 7 a7 rfl)
  have hall : ∀ x ∈ linesOf ls tail, x.length < MaxScanTokenSize := by
    rw [hdec]
    intro x hx
    rcases List.mem_append.1 hx with h | h
    · exact hshort x h
    · obtain ⟨e, he, rfl⟩ := List.mem_map.1 h
      exact (hes e he).2.2.2.2.2
  have hmap : (es.map entryLine).map dropCR = es.map entryLine := by
    rw [List.map_map]
    apply List.map_congr_left
    intro e he
    exact dropCR_entryLine (hes e he)
  refine ⟨{ info with TokenMap := some (foldEntries es []) }, foldEntries es [], ?_, rfl, ?_, ?_, ?_⟩
  · rw [NewInfoFromPlain_lines ls tail hls htail, delivered_all ls tail hall, hdec,
      List.map_append, hmap]
    simp only [List.map_cons, List.map_nil, List.cons_append, List.nil_append]
    rw [e]
    exact dtTokens_ok _ _ _ (tokensOf_entries es [] hes)
  · exact foldEntries_nodup es [] (by simp)
  · intro k
    rw [foldEntries_keys]
    simp
  · intro pre e post hsplit hlast
    rw [hsplit]
    exact foldEntries_last pre e post [] hlast

theorem duplicate_index_last_wins_witness :
    ∃ (info : SpiderInfo) (m : GoMap),
      NewInfoFromPlain (joinLines [ascii "VERSION2", ascii "0000002a", ascii "12345",
          ascii "abctoken", ascii "1", ascii "2", ascii "5", ascii "100", ascii "0 first",
          ascii "3 tok3", ascii "0 last"] ++ []) = (some info, none) ∧
      info.TokenMap = some m ∧ (m.map Prod.fst).Nodup ∧ m.get 0 = ascii "last" :=
  have key := duplicate_index_last_wins
    [ascii "VERSION2", ascii "0000002a", ascii "12345", ascii "abctoken", ascii "1",
      ascii "2", ascii "5", ascii "100", ascii "0 first", ascii "3 tok3", ascii "0 last"] []
    (by decide) (by decide)
    [ascii "VERSION2", ascii "0000002a", ascii "12345", ascii "abctoken", ascii "1",
      ascii "2", ascii "5", ascii "100"]
    [(ascii "0", ascii "first"), (ascii "3", ascii "tok3"), (ascii "0", ascii "last")]
    (by decide) (by decide)
    (by
      intro j x h
      match j with
      | 0 => simp at h; subst h; decide
      | 1 => simp at h; subst h; decide
      | 2 => simp at h; subst h; decide
      | 3 => simp at h; subst h; decide
      | 4 => simp at h; subst h; decide
      | 5 => simp at h; subst h; decide
      | 6 => simp at h; subst h; decide
      | 7 => simp at h; subst h; decide
      | j + 8 => simp at h)
    (by decide) (by decide)
  key.elim fun info hinfo => hinfo.elim fun m hm =>
    ⟨info, m, hm.1, hm.2.1, hm.2.2.1,
      hm.2.2.2.2 [(ascii "0", ascii "first"), (ascii "3", ascii "tok3")]
        (ascii "0", ascii "last") [] rfl (by decide)⟩

/-- The example with a repeated index, evaluated: one entry for index 0, with the
token of its last line. -/
theorem duplicateText_decoded :
    NewInfoFromPlain duplicateText =
      (some { exampleInfo with
                TokenMap := some [(0, ascii "last"), (3, ascii "tok3")] }, none) := by
  decide

/-! ## Round trip on contiguous maps -/

theorem Split_joinLines (L : List Str) (h : ∀ l ∈ L, 10 ∉ l) :
    Split 10 (joinLines L) = L ++ [[]] := by
  induction L with
  | nil => rfl
  | cons l L ih =>
    simp only [joinLines]
    rw [Split_line 10 l _ (h l (by simp)), ih (fun x hx => h x (by simp [hx]))]
    rfl

theorem GoMap.get_of_mem (m : GoMap) (h : (m.map Prod.fst).Nodup) (k : Int) (v : Str)
    (hmem : (k, v) ∈ m) : m.get k = v := by
  induction m with
  | nil => simp at hmem
  | cons p m ih =>
    obtain ⟨k2, v2⟩ := p
    simp only [List.map_cons, List.nodup_cons] at h
    rcases List.mem_cons.1 hmem with e | e
    · simp only [Prod.mk.injEq] at e
      obtain ⟨rfl, rfl⟩ := e
      simp [GoMap.get]
    · have hne : k2 ≠ k := by
        intro hk
        subst hk
        exact h.1 (List.mem_map.2 ⟨(k2, v), e, rfl⟩)
      simp [GoMap.get, hne, ih h.2 e]

theorem GoMap.get_mem_or_nil (m : GoMap) (k : Int) : m.get k = [] ∨ (k, m.get k) ∈ m := by
  induction m with
  | nil => left; rfl
  | cons p m ih =>
    obtain ⟨k2, v2⟩ := p
    by_cases hk : k2 = k
    · subst hk
      right
      simp [GoMap.get]
    · rcases ih with h | h
      · left; simp [GoMap.get, hk, h]
      · right; simp [GoMap.get, hk, h]

/-- A map with distinct keys is the list of its keys, each with the value the map
gives it. -/
theorem GoMap.map_keys_get (m : GoMap) (h : (m.map Prod.fst).Nodup) :
    (m.map Prod.fst).map (fun k => (k, m.get k)) = m := by
  rw [List.map_map]
  conv_rhs => rw [← List.map_id m]
  apply List.map_congr_left
  intro p hp
  obtain ⟨k, v⟩ := p
  simp only [Function.comp, id]
  rw [GoMap.get_of_mem m h k v hp]

theorem foldEntries_fresh (es : List (Str × Str)) :
    ∀ m : GoMap, (m.map Prod.fst ++ es.map (fun e => (entryKey e : Int))).Nodup →
      foldEntries es m = m ++ es.map (fun e => ((entryKey e : Int), e.2)) := by
  induction es with
  | nil => intro m _; simp [foldEntries_nil]
  | cons e es ih =>
    intro m hnd
    have hfresh : (entryKey e : Int) ∉ m.map Prod.fst := by
      intro hmem
      exact (List.nodup_append.1 hnd).2.2 hmem (by simp)
    rw [foldEntries_cons, GoMap.set_fresh m _ _ hfresh, ih]
    · simp
    · simpa [List.map_append, List.append_assoc] using hnd

theorem entryLine_noCR (a tok : Str) (h : tok.getLast? ≠ some 13) :
    (a ++ 32 :: tok).getLast? ≠ some 13 := by
  rw [List.getLast?_append, List.getLast?_cons]
  cases hl : tok.getLast? with
  | none => simp
  | some c =>
    rw [hl] at h
    simpa using h

/-- The token that a map with well-formed tokens gives to any key is well-formed:
it is a token of the map, or the empty zero value. -/
theorem GoMap.get_ok (m : GoMap)
    (hmap : ∀ e ∈ m, 10 ∉ e.2 ∧ e.2.getLast? ≠ some 13 ∧ 32 ∉ e.2) (k : Int) :
    10 ∉ m.get k ∧ (m.get k).getLast? ≠ some 13 ∧ 32 ∉ m.get k := by
  rcases GoMap.get_mem_or_nil m k with h | h
  · rw [h]; simp
  · exact hmap _ h

theorem emittedEntry_eq (m : GoMap) (k : Nat) :
    emittedEntry m k = entryLine (fmtD (k : Int), m.get (k : Int)) := by
  simp [emittedEntry, entryLine]

theorem entryKey_fmtD (k : Nat) (tok : Str) (hk : k < 2 ^ 63) :
    entryKey (fmtD (k : Int), tok) = k := by
  simp [entryKey, decValue_fmtD k hk]

theorem nat_of_field (v : Int) (h : 0 ≤ v ∧ v < 2 ^ 63) :
    ∃ n : Nat, v = (n : Int) ∧ n < 2 ^ 63 := by
  refine ⟨v.toNat, (Int.toNat_of_nonneg h.1).symm, ?_⟩
  have := h.2
  omega

/-- C18. Round trip on contiguous maps. For a record whose map has the keys
`0 .. n-1` (each once; Go `int`s, so `n ≤ 2^63`), whose integer fields lie in
`[0, 2^63)`, whose token and map tokens hold no newline and do not end in a
carriage return, whose map tokens hold no space, and whose output has every line
shorter than `MaxScanTokenSize`, decoding the output of `ToPlainText` succeeds
and gives the record back field for field, with a map of the same entries. -/
theorem roundtrip_contiguous (R : SpiderInfo) (n : Nat)
    (hkeys : ((entries R.TokenMap).map Prod.fst).Perm
      ((List.range n).map (fun k : Nat => (k : Int))))
    (hn : n ≤ 2 ^ 63)
    (hfields : (0 ≤ R.StartPage ∧ R.StartPage < 2 ^ 63) ∧ (0 ≤ R.GID ∧ R.GID < 2 ^ 63) ∧
      (0 ≤ R.PreviewPages ∧ R.PreviewPages < 2 ^ 63) ∧
      (0 ≤ R.PreviewPerPage ∧ R.PreviewPerPage < 2 ^ 63) ∧ (0 ≤ R.Pages ∧ R.Pages < 2 ^ 63))
    (htoken : 10 ∉ R.Token ∧ R.Token.getLast? ≠ some 13)
    (hmap : ∀ e ∈ entries R.TokenMap, 10 ∉ e.2 ∧ e.2.getLast? ≠ some 13 ∧ 32 ∉ e.2)
    (hlines : ∀ l ∈ Split 10 (ToPlainText R).1, l.length < MaxScanTokenSize) :
    ∃ m : GoMap,
      NewInfoFromPlain (ToPlainText R).1 = (some { R with TokenMap := some m }, none) ∧
      m.Perm (entries R.TokenMap) := by
  obtain ⟨hf1, hf2, hf3, hf4, hf5⟩ := hfields
  obtain ⟨vh, ehh, bh⟩ := nat_of_field _ hf1
  obtain ⟨vg, egg, bg⟩ := nat_of_field _ hf2
  obtain ⟨v1, e1, b1⟩ := nat_of_field _ hf3
  obtain ⟨v2, e2, b2⟩ := nat_of_field _ hf4
  obtain ⟨v3, e3, b3⟩ := nat_of_field _ hf5
  have hM : (entries R.TokenMap).length = n := by
    have := hkeys.length_eq
    simpa using this
  have hnd : ((entries R.TokenMap).map Prod.fst).Nodup := by
    rw [hkeys.nodup_iff]
    exact List.Nodup.map (fun a b hab => by exact_mod_cast hab) (List.nodup_range n)
  -- the lines of the output
  have hout := ToPlainText_eq R
  rw [hM, ← joinLines_append] at hout
  have hNL : ∀ l ∈ [ascii "VERSION2", fmt08x R.StartPage, fmtD R.GID, R.Token, [49],
      fmtD R.PreviewPages, fmtD R.PreviewPerPage, fmtD R.Pages]
      ++ (List.range n).map (emittedEntry (entries R.TokenMap)), 10 ∉ l := by
    intro l hl
    simp only [List.cons_append, List.nil_append, List.mem_cons, List.mem_map] at hl
    rcases hl with rfl | rfl | rfl | rfl | rfl | rfl | rfl | rfl | ⟨k, -, rfl⟩
    · exact VERSION2_noNL
    · exact fmt08x_noNL _
    · exact fmtD_noNL _
    · exact htoken.1
    · decide
    · exact fmtD_noNL _
    · exact fmtD_noNL _
    · exact fmtD_noNL _
    · have := (GoMap.get_ok _ hmap (k : Int)).1
      have h2 := fmtD_noNL (k : Int)
      simp [emittedEntry, this, h2]
  have hshort : ∀ l ∈ [ascii "VERSION2", fmt08x R.StartPage, fmtD R.GID, R.Token, [49],
      fmtD R.PreviewPages, fmtD R.PreviewPerPage, fmtD R.Pages]
      ++ (List.range n).map (emittedEntry (entries R.TokenMap)),
      l.length < MaxScanTokenSize := by
    intro l hl
    apply hlines
    rw [show (ToPlainText R).1 = _ from congrArg Prod.fst hout, Split_joinLines _ hNL]
    exact List.mem_append_left _ hl
  -- the mapping lines
  have hes : ∀ e ∈ (List.range n).map (fun k : Nat =>
      (fmtD (k : Int), (entries R.TokenMap).get (k : Int))), EntryOk e := by
    intro e he
    obtain ⟨k, hk, rfl⟩ := List.mem_map.1 he
    have hk63 : k < 2 ^ 63 := by
      have := List.mem_range.1 hk
      omega
    obtain ⟨g10, g13, g32⟩ := GoMap.get_ok _ hmap (k : Int)
    refine ⟨by simp [decValue_fmtD k hk63], by rw [entryKey_fmtD k _ hk63]; exact hk63,
      g32, g10, entryLine_noCR _ _ g13, ?_⟩
    apply hshort
    apply List.mem_append_right
    rw [← emittedEntry_eq]
    exact List.mem_map.2 ⟨k, hk, rfl⟩
  have hlinesEq : (List.range n).map (emittedEntry (entries R.TokenMap))
      = ((List.range n).map (fun k : Nat =>
          (fmtD (k : Int), (entries R.TokenMap).get (k : Int)))).map entryLine := by
    rw [List.map_map]
    apply List.map_congr_left
    intro k _
    exact emittedEntry_eq _ k
  have hdecode := grammar_decodes (fmt08x R.StartPage) (fmtD R.GID) R.Token [49]
    (fmtD R.PreviewPages) (fmtD R.PreviewPerPage) (fmtD R.Pages)
    ((List.range n).map (fun k : Nat => (fmtD (k : Int), (entries R.TokenMap).get (k : Int))))
    vh vg v1 v2 v3
    ([ascii "VERSION2", fmt08x R.StartPage, fmtD R.GID, R.Token, [49],
      fmtD R.PreviewPages, fmtD R.PreviewPerPage, fmtD R.Pages]
      ++ (List.range n).map (emittedEntry (entries R.TokenMap))) []
    (by simp [linesOf, hlinesEq])
    (by rw [ehh]; exact hexValue_fmt08x vh bh) (by rw [egg]; exact decValue_fmtD vg bg)
    (by rw [e1]; exact decValue_fmtD v1 b1) (by rw [e2]; exact decValue_fmtD v2 b2)
    (by rw [e3]; exact decValue_fmtD v3 b3) ⟨bh, bg, b1, b2, b3⟩ htoken (by decide) hes
    (by
      intro l hl
      apply hshort
      simp only [List.mem_cons, List.mem_singleton, List.not_mem_nil, or_false] at hl
      simp only [List.cons_append, List.nil_append, List.mem_cons]
      tauto)
  rw [List.append_nil] at hdecode
  -- the map read back
  have hkeysNat : (([] : GoMap).map Prod.fst ++
      ((List.range n).map (fun k : Nat =>
        (fmtD (k : Int), (entries R.TokenMap).get (k : Int)))).map
          (fun e => (entryKey e : Int))).Nodup := by
    rw [List.map_nil, List.nil_append, List.map_map]
    have : (List.range n).map ((fun e => (entryKey e : Int)) ∘ fun k : Nat =>
        (fmtD (k : Int), (entries R.TokenMap).get (k : Int)))
        = (List.range n).map (fun k : Nat => (k : Int)) := by
      apply List.map_congr_left
      intro k hk
      have hk63 : k < 2 ^ 63 := by
        have := List.mem_range.1 hk
        omega
      simp [entryKey_fmtD k _ hk63]
    rw [this]
    exact List.Nodup.map (fun a b hab => by exact_mod_cast hab) (List.nodup_range n)
  have hfold := foldEntries_fresh _ [] hkeysNat
  rw [List.nil_append, List.map_map] at hfold
  have hmapped : (List.range n).map ((fun e : Str × Str => ((entryKey e : Int), e.2)) ∘
      fun k : Nat => (fmtD (k : Int), (entries R.TokenMap).get (k : Int)))
      = ((List.range n).map (fun k : Nat => (k : Int))).map
          (fun k => (k, (entries R.TokenMap).get k)) := by
    rw [List.map_map]
    apply List.map_congr_left
    intro k hk
    have hk63 : k < 2 ^ 63 := by
      have := List.mem_range.1 hk
      omega
    simp [entryKey_fmtD k _ hk63]
  rw [hmapped] at hfold
  refine ⟨((List.range n).map (fun k : Nat => (k : Int))).map
    (fun k => (k, (entries R.TokenMap).get k)), ?_, ?_⟩
  · rw [show (ToPlainText R).1 = _ from congrArg Prod.fst hout, hdecode, hfold]
    cases R
    simp_all
  · have := (hkeys.map (fun k => (k, (entries R.TokenMap).get k))).symm
    rw [GoMap.map_keys_get _ hnd] at this
    exact this

theorem roundtrip_contiguous_witness :
    ∃ m : GoMap,
      NewInfoFromPlain (ToPlainText contiguousInfo).1
        = (some { contiguousInfo with TokenMap := some m }, none) ∧
      m.Perm (entries contiguousInfo.TokenMap) :=
  roundtrip_contiguous contiguousInfo 2 (List.Perm.swap 0 1 []) (by decide) (by decide)
    (by decide) (by decide) (by decide)

end EhConv
